import Mathlib

/-!
Verification development for the mojom-language-support repository.

The definitions below are shallow embeddings of the Rust sources:
  * `src/syntax/src/syntax.rs`   - the declaration tree (`MojomFile` and friends),
  * `src/syntax/src/traverse.rs` - the preorder enter/leave iterator,
  * `src/server/src/semantic.rs` - semantic analysis (single-module rule, keyword check),
  * `src/server/src/mojomast.rs` and `src/mojom-lsp/src/server/mojomast.rs` - `MojomAst`,
  * `src/mojom-lsp/src/server/definition.rs` and `src/server/src/imported_files.rs`
    - go-to-definition,
  * `src/server/src/diagnostic.rs` - the analysis task's check procedure,
  * `src/mojom-lsp/src/server/server.rs` - the dispatch state machine,
  * `src/server/src/protocol.rs` - JSON-RPC header reading.

Source text is modelled as `List Char`; ranges are half-open index ranges into
that sequence (they agree with the Rust byte offsets on ASCII input, and all
grammar tokens are ASCII).  Where a claim is genuinely about bytes
(`get_identifier`), UTF-8 byte offsets are modelled explicitly.
-/

namespace Mojom

/-- Half-open range of offsets into the source text
(`Range` in `src/syntax/src/syntax.rs`; the Rust field `end` is `stop` here). -/
structure Range where
  start : Nat
  stop : Nat
  deriving DecidableEq, Repr

/-- The text that a range denotes: `&text[r.start..r.end]` in the Rust sources. -/
def slice (text : List Char) (r : Range) : List Char :=
  (text.drop r.start).take (r.stop - r.start)

/-- A `module` statement (`Module` in `syntax.rs`). -/
structure Module where
  name : Range
  deriving DecidableEq, Repr

/-- An `import` statement (`Import` in `syntax.rs`). -/
structure Import where
  path : Range
  deriving DecidableEq, Repr

/-- A `const` declaration (`Const` in `syntax.rs`). -/
structure Const where
  typ : Range
  name : Range
  value : Range
  deriving DecidableEq, Repr

/-- One value of an `enum` declaration (`EnumValue` in `syntax.rs`). -/
structure EnumValue where
  name : Range
  value : Option Range
  deriving DecidableEq, Repr

/-- An `enum` declaration (`Enum` in `syntax.rs`). -/
structure Enum where
  name : Range
  values : List EnumValue
  deriving DecidableEq, Repr

/-- A field of a `struct` (`StructField` in `syntax.rs`). -/
structure StructField where
  typ : Range
  name : Range
  ordinal : Option Range
  default : Option Range
  deriving DecidableEq, Repr

/-- A member of a `struct` body (`StructBody` in `syntax.rs`). -/
inductive StructBody where
  | const (c : Const)
  | enum (e : Enum)
  | field (f : StructField)
  deriving DecidableEq, Repr

/-- A `struct` declaration (`Struct` in `syntax.rs`). -/
structure Struct where
  name : Range
  members : List StructBody
  deriving DecidableEq, Repr

/-- A field of a `union` (`UnionField` in `syntax.rs`). -/
structure UnionField where
  typ : Range
  name : Range
  ordinal : Option Range
  deriving DecidableEq, Repr

/-- A `union` declaration (`Union` in `syntax.rs`). -/
structure Union where
  name : Range
  fields : List UnionField
  deriving DecidableEq, Repr

/-- A method parameter (`Parameter` in `syntax.rs`). -/
structure Parameter where
  typ : Range
  name : Range
  ordinal : Option Range
  deriving DecidableEq, Repr

/-- A method response (`Response` in `syntax.rs`). -/
structure Response where
  params : List Parameter
  deriving DecidableEq, Repr

/-- A method declaration (`Method` in `syntax.rs`). -/
structure Method where
  name : Range
  ordinal : Option Range
  params : List Parameter
  response : Option Response
  deriving DecidableEq, Repr

/-- A member of an `interface` body (`InterfaceMember` in `syntax.rs`). -/
inductive InterfaceMember where
  | const (c : Const)
  | enum (e : Enum)
  | method (m : Method)
  deriving DecidableEq, Repr

/-- An `interface` declaration (`Interface` in `syntax.rs`). -/
structure Interface where
  name : Range
  members : List InterfaceMember
  deriving DecidableEq, Repr

/-- A top-level statement (`Statement` in `syntax.rs`).  The `Import`
constructor is called `imp` because `import` is reserved in Lean. -/
inductive Statement where
  | module (m : Module)
  | imp (i : Import)
  | interface (i : Interface)
  | struct (s : Struct)
  | union (u : Union)
  | enum (e : Enum)
  | const (c : Const)
  deriving DecidableEq, Repr

/-- A parsed file (`MojomFile` in `syntax.rs`). -/
structure MojomFile where
  stmts : List Statement
  deriving DecidableEq, Repr

/-! ## Preorder traversal (`src/syntax/src/traverse.rs`)

The Rust iterator `Preorder` pops a state from an explicit stack on every
`next()` call and emits one `Traversal` event.  The embedding below mirrors
that machine frame by frame. -/

/-- The events emitted by the preorder iterator (`Traversal` in `traverse.rs`).
The `Import` event is called `imp`, as in `Statement`. -/
inductive Traversal where
  | enterMojomFile (f : MojomFile)
  | leaveMojomFile (f : MojomFile)
  | enterInterface (i : Interface)
  | leaveInterface (i : Interface)
  | enterStruct (s : Struct)
  | leaveStruct (s : Struct)
  | module (m : Module)
  | imp (i : Import)
  | method (m : Method)
  | union (u : Union)
  | enum (e : Enum)
  | const (c : Const)
  | structField (f : StructField)
  deriving DecidableEq, Repr

/-- The non-leaf nodes (the implementors of the `NonLeaf` trait in
`traverse.rs`): the file, interfaces and structs. -/
inductive NonLeafNode where
  | file (f : MojomFile)
  | intf (i : Interface)
  | strct (s : Struct)
  deriving DecidableEq, Repr

/-- A child as returned by `visit_child` (`Node` in `traverse.rs`).  A leaf is
represented by the event its `visit()` method produces. -/
inductive Node where
  | leaf (t : Traversal)
  | nonLeaf (n : NonLeafNode)
  deriving DecidableEq, Repr

/-- The `enter()` method of the `NonLeaf` trait. -/
def NonLeafNode.enter : NonLeafNode → Traversal
  | .file f => .enterMojomFile f
  | .intf i => .enterInterface i
  | .strct s => .enterStruct s

/-- The `leave()` method of the `NonLeaf` trait. -/
def NonLeafNode.leave : NonLeafNode → Traversal
  | .file f => .leaveMojomFile f
  | .intf i => .leaveInterface i
  | .strct s => .leaveStruct s

/-- A statement viewed as a child node of the file (the match inside
`MojomFile::visit_child`). -/
def stmtNode : Statement → Node
  | .module m => .leaf (.module m)
  | .imp i => .leaf (.imp i)
  | .interface i => .nonLeaf (.intf i)
  | .struct s => .nonLeaf (.strct s)
  | .union u => .leaf (.union u)
  | .enum e => .leaf (.enum e)
  | .const c => .leaf (.const c)

/-- An interface member viewed as a child node (`Interface::visit_child`). -/
def interfaceMemberNode : InterfaceMember → Node
  | .const c => .leaf (.const c)
  | .enum e => .leaf (.enum e)
  | .method m => .leaf (.method m)

/-- A struct member viewed as a child node (`Struct::visit_child`). -/
def structBodyNode : StructBody → Node
  | .const c => .leaf (.const c)
  | .enum e => .leaf (.enum e)
  | .field f => .leaf (.structField f)

/-- The `visit_child(pos)` method of the `NonLeaf` trait. -/
def NonLeafNode.visitChild : NonLeafNode → Nat → Option Node
  | .file f, pos => (f.stmts[pos]?).map stmtNode
  | .intf i, pos => (i.members[pos]?).map interfaceMemberNode
  | .strct s, pos => (s.members[pos]?).map structBodyNode

/-- A stack entry of the iterator (`TraversalState` in `traverse.rs`). -/
inductive Frame where
  | nonLeaf (n : NonLeafNode)
  | child (n : NonLeafNode) (pos : Nat)
  deriving DecidableEq, Repr

/-- Measure of a statement used to prove the traversal terminates: one event
for a leaf, enter + children + leave for a non-leaf. -/
def stmtSize : Statement → Nat
  | .interface i => 2 + i.members.length
  | .struct s => 2 + s.members.length
  | _ => 1

/-- Number of events still owed by the children of a node from `pos` on. -/
def childrenFrom : NonLeafNode → Nat → Nat
  | .file f, pos => ((f.stmts.drop pos).map stmtSize).sum
  | .intf i, pos => i.members.length - pos
  | .strct s, pos => s.members.length - pos

/-- Measure of one stack frame. -/
def frameMeasure : Frame → Nat
  | .nonLeaf n => 2 + childrenFrom n 0
  | .child n pos => childrenFrom n pos + 1

/-- Measure of the whole stack. -/
def stackMeasure (st : List Frame) : Nat :=
  (st.map frameMeasure).sum

theorem stmtSize_pos (s : Statement) : 1 ≤ stmtSize s := by
  cases s <;> simp [stmtSize] <;> omega

theorem childrenFrom_succ_file (f : MojomFile) (pos : Nat) (h : pos < f.stmts.length) :
    childrenFrom (.file f) pos = stmtSize f.stmts[pos] + childrenFrom (.file f) (pos + 1) := by
  simp only [childrenFrom, List.drop_eq_getElem_cons h, List.map_cons, List.sum_cons]

/-- One step of the iterator (`Preorder::next` in `traverse.rs`), run to
completion.  Each equation emits exactly one event, as one call of `next()`
does. -/
def runFrom : List Frame → List Traversal
  | [] => []
  | .nonLeaf n :: rest => n.enter :: runFrom (.child n 0 :: rest)
  | .child n pos :: rest =>
    match h : n.visitChild pos with
    | some (.leaf t) => t :: runFrom (.child n (pos + 1) :: rest)
    | some (.nonLeaf c) => c.enter :: runFrom (.child c 0 :: .child n (pos + 1) :: rest)
    | none => n.leave :: runFrom rest
  termination_by st => stackMeasure st
  decreasing_by
  · simp only [stackMeasure, List.map_cons, List.sum_cons, frameMeasure]
    omega
  · cases n with
    | file f =>
      rcases hs : f.stmts[pos]? with _ | s
      · simp [NonLeafNode.visitChild, hs] at h
      · have hpos : pos < f.stmts.length := by
          by_contra hge
          simp [List.getElem?_eq_none (Nat.le_of_not_lt hge)] at hs
        have hget : f.stmts[pos] = s := by
          rw [List.getElem?_eq_getElem hpos] at hs
          exact Option.some_inj.mp hs
        have hsum := childrenFrom_succ_file f pos hpos
        have hsz := stmtSize_pos s
        rw [hget] at hsum
        simp only [stackMeasure, List.map_cons, List.sum_cons, frameMeasure]
        omega
    | intf i =>
      have hpos : pos < i.members.length := by
        by_contra hge
        simp [NonLeafNode.visitChild, List.getElem?_eq_none (Nat.le_of_not_lt hge)] at h
      simp only [stackMeasure, List.map_cons, List.sum_cons, frameMeasure, childrenFrom]
      omega
    | strct s =>
      have hpos : pos < s.members.length := by
        by_contra hge
        simp [NonLeafNode.visitChild, List.getElem?_eq_none (Nat.le_of_not_lt hge)] at h
      simp only [stackMeasure, List.map_cons, List.sum_cons, frameMeasure, childrenFrom]
      omega
  · cases n with
    | file f =>
      rcases hs : f.stmts[pos]? with _ | s
      · simp [NonLeafNode.visitChild, hs] at h
      · have hpos : pos < f.stmts.length := by
          by_contra hge
          simp [List.getElem?_eq_none (Nat.le_of_not_lt hge)] at hs
        have hget : f.stmts[pos] = s := by
          rw [List.getElem?_eq_getElem hpos] at hs
          exact Option.some_inj.mp hs
        have hsum := childrenFrom_succ_file f pos hpos
        rw [hget] at hsum
        simp only [NonLeafNode.visitChild, hs, Option.map_some'] at h
        have hsz : stmtSize s = 2 + childrenFrom c 0 := by
          cases s <;> simp [stmtNode] at h
          · subst h; simp [stmtSize, childrenFrom]
          · subst h; simp [stmtSize, childrenFrom]
        simp only [stackMeasure, List.map_cons, List.sum_cons, frameMeasure]
        omega
    | intf i =>
      exfalso
      rcases hm : i.members[pos]? with _ | m
      · simp [NonLeafNode.visitChild, hm] at h
      · simp only [NonLeafNode.visitChild, hm, Option.map_some'] at h
        cases m <;> simp [interfaceMemberNode] at h
    | strct s =>
      exfalso
      rcases hm : s.members[pos]? with _ | m
      · simp [NonLeafNode.visitChild, hm] at h
      · simp only [NonLeafNode.visitChild, hm, Option.map_some'] at h
        cases m <;> simp [structBodyNode] at h
  · simp only [stackMeasure, List.map_cons, List.sum_cons, frameMeasure]
    omega

/-- The full run of the preorder iterator (`preorder(mojom)` in `traverse.rs`,
pulled until it yields `None`). -/
def machineRun (mojom : MojomFile) : List Traversal :=
  runFrom [.nonLeaf (.file mojom)]

/-! ## The intended event sequence

`specEvents` is the structurally recursive description of the event stream:
one enter/leave pair around the members of each interface and struct, one
event per leaf declaration, everything in source order.  The lemma
`machineRun_eq_specEvents` shows the stack machine produces exactly this. -/

/-- The single event of an interface member (all interface members are leaves). -/
def interfaceMemberEvent : InterfaceMember → Traversal
  | .const c => .const c
  | .enum e => .enum e
  | .method m => .method m

/-- The single event of a struct member (all struct members are leaves). -/
def structBodyEvent : StructBody → Traversal
  | .const c => .const c
  | .enum e => .enum e
  | .field f => .structField f

/-- The events contributed by one top-level statement. -/
def stmtEvents : Statement → List Traversal
  | .module m => [.module m]
  | .imp i => [.imp i]
  | .interface i =>
    .enterInterface i :: i.members.map interfaceMemberEvent ++ [.leaveInterface i]
  | .struct s =>
    .enterStruct s :: s.members.map structBodyEvent ++ [.leaveStruct s]
  | .union u => [.union u]
  | .enum e => [.enum e]
  | .const c => [.const c]

/-- The intended full event sequence of a file. -/
def specEvents (mojom : MojomFile) : List Traversal :=
  .enterMojomFile mojom :: mojom.stmts.flatMap stmtEvents ++ [.leaveMojomFile mojom]

theorem interfaceMemberNode_eq (m : InterfaceMember) :
    interfaceMemberNode m = .leaf (interfaceMemberEvent m) := by
  cases m <;> rfl

theorem structBodyNode_eq (m : StructBody) :
    structBodyNode m = .leaf (structBodyEvent m) := by
  cases m <;> rfl

theorem runFrom_child_intf (i : Interface) (rest : List Frame) :
    ∀ k pos, i.members.length - pos = k →
      runFrom (.child (.intf i) pos :: rest) =
        (i.members.drop pos).map interfaceMemberEvent ++
          .leaveInterface i :: runFrom rest := by
  intro k
  induction k with
  | zero =>
    intro pos hk
    have hpos : i.members.length ≤ pos := by omega
    rw [runFrom]
    split
    · next t heq => simp [NonLeafNode.visitChild, List.getElem?_eq_none hpos] at heq
    · next c heq => simp [NonLeafNode.visitChild, List.getElem?_eq_none hpos] at heq
    · simp [NonLeafNode.leave, List.drop_eq_nil_of_le hpos]
  | succ k ih =>
    intro pos hk
    have hpos : pos < i.members.length := by omega
    rw [runFrom]
    split
    · next t heq =>
      simp only [NonLeafNode.visitChild, List.getElem?_eq_getElem hpos, Option.map_some', interfaceMemberNode_eq] at heq
      obtain rfl : interfaceMemberEvent i.members[pos] = t := by simpa using heq
      rw [ih (pos + 1) (by omega), List.drop_eq_getElem_cons hpos]
      simp only [List.map_cons, List.cons_append]
    · next c heq =>
      simp [NonLeafNode.visitChild, List.getElem?_eq_getElem hpos, interfaceMemberNode_eq] at heq
    · next heq => simp [NonLeafNode.visitChild, List.getElem?_eq_getElem hpos] at heq

theorem runFrom_child_strct (s : Struct) (rest : List Frame) :
    ∀ k pos, s.members.length - pos = k →
      runFrom (.child (.strct s) pos :: rest) =
        (s.members.drop pos).map structBodyEvent ++
          .leaveStruct s :: runFrom rest := by
  intro k
  induction k with
  | zero =>
    intro pos hk
    have hpos : s.members.length ≤ pos := by omega
    rw [runFrom]
    split
    · next t heq => simp [NonLeafNode.visitChild, List.getElem?_eq_none hpos] at heq
    · next c heq => simp [NonLeafNode.visitChild, List.getElem?_eq_none hpos] at heq
    · simp [NonLeafNode.leave, List.drop_eq_nil_of_le hpos]
  | succ k ih =>
    intro pos hk
    have hpos : pos < s.members.length := by omega
    rw [runFrom]
    split
    · next t heq =>
      simp only [NonLeafNode.visitChild, List.getElem?_eq_getElem hpos, Option.map_some', structBodyNode_eq] at heq
      obtain rfl : structBodyEvent s.members[pos] = t := by simpa using heq
      rw [ih (pos + 1) (by omega), List.drop_eq_getElem_cons hpos]
      simp only [List.map_cons, List.cons_append]
    · next c heq =>
      simp [NonLeafNode.visitChild, List.getElem?_eq_getElem hpos, structBodyNode_eq] at heq
    · next heq => simp [NonLeafNode.visitChild, List.getElem?_eq_getElem hpos] at heq

theorem runFrom_child_file (f : MojomFile) (rest : List Frame) :
    ∀ k pos, f.stmts.length - pos = k →
      runFrom (.child (.file f) pos :: rest) =
        (f.stmts.drop pos).flatMap stmtEvents ++ .leaveMojomFile f :: runFrom rest := by
  intro k
  induction k with
  | zero =>
    intro pos hk
    have hpos : f.stmts.length ≤ pos := by omega
    rw [runFrom]
    split
    · next t heq => simp [NonLeafNode.visitChild, List.getElem?_eq_none hpos] at heq
    · next c heq => simp [NonLeafNode.visitChild, List.getElem?_eq_none hpos] at heq
    · simp [NonLeafNode.leave, List.drop_eq_nil_of_le hpos]
  | succ k ih =>
    intro pos hk
    have hpos : pos < f.stmts.length := by omega
    rw [runFrom, List.drop_eq_getElem_cons hpos, List.flatMap_cons]
    split
    · next t heq =>
      simp only [NonLeafNode.visitChild, List.getElem?_eq_getElem hpos, Option.map_some'] at heq
      rw [ih (pos + 1) (by omega)]
      cases hs : f.stmts[pos] <;> rw [hs] at heq <;> simp [stmtNode] at heq <;>
        subst heq <;> simp only [stmtEvents, List.cons_append, List.nil_append]
    · next c heq =>
      simp only [NonLeafNode.visitChild, List.getElem?_eq_getElem hpos, Option.map_some'] at heq
      cases hs : f.stmts[pos] <;> rw [hs] at heq <;> simp [stmtNode] at heq
      · subst heq
        simp only [NonLeafNode.enter]
        rw [runFrom_child_intf _ _ _ 0 rfl, ih (pos + 1) (by omega)]
        simp [stmtEvents]
      · subst heq
        simp only [NonLeafNode.enter]
        rw [runFrom_child_strct _ _ _ 0 rfl, ih (pos + 1) (by omega)]
        simp [stmtEvents]
    · next heq => simp [NonLeafNode.visitChild, List.getElem?_eq_getElem hpos] at heq

theorem machineRun_eq_specEvents (mojom : MojomFile) :
    machineRun mojom = specEvents mojom := by
  unfold machineRun
  rw [runFrom]
  rw [runFrom_child_file mojom [] mojom.stmts.length 0 (by omega)]
  rw [runFrom]
  simp [specEvents, NonLeafNode.enter]

/-- C5: the preorder iterator of `traverse.rs` yields a finite event sequence
that is exactly `specEvents`: it begins with `EnterMojomFile` and ends with
`LeaveMojomFile`; each `Interface` and each `Struct` contributes exactly one
`Enter` event and one matching `Leave` event, the `Leave` coming after all of
the events of that node's members (proper nesting); every other declaration
(`Module`, `Import`, `Method`, `Union`, `Enum`, `Const`, `StructField`)
contributes exactly one event; and everything appears in source order.  All of
this is literal in the shape of `specEvents` and `stmtEvents`. -/
theorem C5_preorder_events (mojom : MojomFile) :
    machineRun mojom = specEvents mojom ∧
    (machineRun mojom).head? = some (.enterMojomFile mojom) ∧
    (machineRun mojom).getLast? = some (.leaveMojomFile mojom) := by
  refine ⟨machineRun_eq_specEvents mojom, ?_, ?_⟩
  · rw [machineRun_eq_specEvents]
    rfl
  · rw [machineRun_eq_specEvents]
    show (Traversal.enterMojomFile mojom ::
      (mojom.stmts.flatMap stmtEvents ++ [Traversal.leaveMojomFile mojom])).getLast? = _
    rw [show Traversal.enterMojomFile mojom ::
        (mojom.stmts.flatMap stmtEvents ++ [Traversal.leaveMojomFile mojom]) =
        (Traversal.enterMojomFile mojom :: mojom.stmts.flatMap stmtEvents) ++
          [Traversal.leaveMojomFile mojom] from rfl]
    exact List.getLast?_concat _

/-! ## LSP data types and position conversion

Minimal models of the `lsp_types` records the server constructs, plus the
line/column conversions (`line_col` in `syntax.rs` is pest's
`Position::line_col`, one-based and counting columns in characters). -/

/-- Zero-based LSP position (`lsp_types::Position`). -/
structure Position where
  line : Nat
  character : Nat
  deriving DecidableEq, Repr

/-- LSP range (`lsp_types::Range`; the Rust field `end` is `stop` here). -/
structure LspRange where
  start : Position
  stop : Position
  deriving DecidableEq, Repr

/-- LSP location (`lsp_types::Location`). -/
structure Location where
  uri : String
  range : LspRange
  deriving DecidableEq, Repr

/-- Diagnostic severity; the server only ever uses `Error`. -/
inductive Severity where
  | error
  deriving DecidableEq, Repr

/-- LSP diagnostic (`lsp_types::Diagnostic`, with the fields the server sets). -/
structure Diagnostic where
  range : LspRange
  severity : Option Severity
  code : Option String
  source : Option String
  message : List Char
  deriving DecidableEq, Repr

/-- One-based (line, column) of an in-bounds offset, counting columns in
characters, following pest's `Position::line_col`. -/
def lineCol1Core (text : List Char) (offset : Nat) : Nat × Nat :=
  let before := text.take offset
  (before.count '\n' + 1, (before.reverse.takeWhile (fun c => c ≠ '\n')).length + 1)

/-- The `line_col` helper of `syntax.rs`: pest's `Position::new` yields `None`
for an offset past the end of the text. -/
def line_col (text : List Char) (offset : Nat) : Option (Nat × Nat) :=
  if offset ≤ text.length then some (lineCol1Core text offset) else none

/-- Zero-based line/column record (`LineCol` in the mojom-lsp syntax crate). -/
structure LineCol where
  line : Nat
  col : Nat
  deriving DecidableEq, Repr

/-- Modelled from the spec: the mojom-lsp crate's zero-based `line_col` (its
syntax module is not under `src/`; spec section 3 fixes zero-based line and
column at the LSP boundary, and `Error::range` in `syntax.rs` shows the
conversion as pest's one-based positions minus one). -/
def lineCol0 (text : List Char) (offset : Nat) : LineCol :=
  let lc := lineCol1Core text offset
  ⟨lc.1 - 1, lc.2 - 1⟩

/-- Modelled from the spec: `into_lsp_range` (referenced by `semantic.rs` but
defined in a `diagnostic.rs` revision that is not under `src/`): converts two
one-based pest positions to a zero-based LSP range. -/
def into_lsp_range (start stop : Nat × Nat) : LspRange :=
  ⟨⟨start.1 - 1, start.2 - 1⟩, ⟨stop.1 - 1, stop.2 - 1⟩⟩

/-! ## Semantic analysis (`src/server/src/semantic.rs`) -/

/-- The keyword list of `is_keyword` in `semantic.rs`, transcribed clause by
clause; note that the source repeats `uint8` and never lists `uint16`. -/
def is_keyword (ident : List Char) : Bool :=
  ident = "array".toList
    || ident = "true".toList
    || ident = "false".toList
    || ident = "default".toList
    || ident = "bool".toList
    || ident = "int8".toList
    || ident = "uint8".toList
    || ident = "int16".toList
    || ident = "uint8".toList
    || ident = "int32".toList
    || ident = "uint32".toList
    || ident = "int64".toList
    || ident = "uint64".toList
    || ident = "float".toList
    || ident = "double".toList
    || ident = "associated".toList
    || ident = "const".toList
    || ident = "enum".toList
    || ident = "handle".toList
    || ident = "import".toList
    || ident = "interface".toList
    || ident = "map".toList
    || ident = "module".toList
    || ident = "struct".toList
    || ident = "union".toList

/-- The `create_diagnostic` helper of `semantic.rs`.  The `unwrap` on
`line_col` is modelled by `getD`; the offsets are in bounds for every tree the
parser produces. -/
def create_diagnostic (text : List Char) (range : Range) (message : List Char) : Diagnostic :=
  let start := (line_col text range.start).getD (0, 0)
  let stop := (line_col text range.stop).getD (0, 0)
  { range := into_lsp_range start stop
    severity := some .error
    code := some "mojom"
    source := some "mojom-lsp"
    message := message }

/-- The name selector of the `filter_map` in `check_invalid_keywords`. -/
def traversalName : Traversal → Option Range
  | .enterInterface stmt => some stmt.name
  | .enterStruct stmt => some stmt.name
  | .module stmt => some stmt.name
  | .method stmt => some stmt.name
  | .union stmt => some stmt.name
  | .enum stmt => some stmt.name
  | .const stmt => some stmt.name
  | .structField stmt => some stmt.name
  | _ => none

/-- The `check_invalid_keywords` pass of `semantic.rs`: walk the preorder
events, collect every declaration name range, and emit one diagnostic per
name whose text is a keyword. -/
def check_invalid_keywords (text : List Char) (mojom : MojomFile) : List Diagnostic :=
  (((machineRun mojom).filterMap traversalName).filter
      fun range => is_keyword (slice text range)).map
    fun range =>
      create_diagnostic text range ("Unexpected keyword: ".toList ++ slice text range)

/-- The message built for a duplicate module statement in `find_module`. -/
def duplicateModuleMessage (text : List Char) (kept dup : Module) : List Char :=
  "Found more than one module statement: ".toList ++ slice text kept.name ++
    " and ".toList ++ slice text dup.name

/-- The statement loop of `find_module` in `semantic.rs`, with the mutable
`module` and `diagnostics` state made explicit. -/
def find_module_loop (text : List Char) :
    List Statement → Option Module → List Diagnostic → Option Module × List Diagnostic
  | [], module, diagnostics => (module, diagnostics)
  | .module stmt :: rest, some kept, diagnostics =>
    find_module_loop text rest (some kept)
      (diagnostics ++ [create_diagnostic text stmt.name (duplicateModuleMessage text kept stmt)])
  | .module stmt :: rest, none, diagnostics =>
    find_module_loop text rest (some stmt) diagnostics
  | .imp _ :: rest, module, diagnostics => find_module_loop text rest module diagnostics
  | .interface _ :: rest, module, diagnostics => find_module_loop text rest module diagnostics
  | .struct _ :: rest, module, diagnostics => find_module_loop text rest module diagnostics
  | .union _ :: rest, module, diagnostics => find_module_loop text rest module diagnostics
  | .enum _ :: rest, module, diagnostics => find_module_loop text rest module diagnostics
  | .const _ :: rest, module, diagnostics => find_module_loop text rest module diagnostics

/-- The `find_module` pass of `semantic.rs`: single pass over the statements,
keep the first module, emit one diagnostic on each later module's name. -/
def find_module (text : List Char) (mojom : MojomFile) : Option Module × List Diagnostic :=
  find_module_loop text mojom.stmts none []

/-- The result of semantic analysis (`Analysis` in `semantic.rs`). -/
structure Analysis where
  module : Option Module
  diagnostics : List Diagnostic
  deriving DecidableEq, Repr

/-- The `check_semantics` entry of `semantic.rs`: the module pass first, then
the keyword pass, pushing into the same diagnostics vector. -/
def check_semantics (text : List Char) (mojom : MojomFile) : Analysis :=
  let fm := find_module text mojom
  { module := fm.1, diagnostics := fm.2 ++ check_invalid_keywords text mojom }

/-- The module statements of a file, in source order. -/
def moduleStmts (mojom : MojomFile) : List Module :=
  mojom.stmts.filterMap fun
    | .module m => some m
    | _ => none

theorem find_module_loop_some (text : List Char) :
    ∀ (stmts : List Statement) (kept : Module) (ds : List Diagnostic),
      find_module_loop text stmts (some kept) ds =
        (some kept,
          ds ++ ((stmts.filterMap fun | .module m => some m | _ => none).map
            fun m => create_diagnostic text m.name (duplicateModuleMessage text kept m))) := by
  intro stmts
  induction stmts with
  | nil => intro kept ds; simp [find_module_loop]
  | cons s rest ih =>
    intro kept ds
    cases s <;> simp [find_module_loop, ih, List.filterMap_cons]

theorem find_module_loop_none (text : List Char) :
    ∀ (stmts : List Statement) (ds : List Diagnostic),
      find_module_loop text stmts none ds =
        (match stmts.filterMap (fun | .module m => some m | _ => none) with
          | [] => (none, ds)
          | kept :: rest =>
            (some kept,
              ds ++ rest.map fun m =>
                create_diagnostic text m.name (duplicateModuleMessage text kept m))) := by
  intro stmts
  induction stmts with
  | nil => intro ds; simp [find_module_loop]
  | cons s rest ih =>
    intro ds
    cases s with
    | module m =>
      simp only [find_module_loop, List.filterMap_cons]
      rw [find_module_loop_some]
    | imp i => simp [find_module_loop, ih, List.filterMap_cons]
    | interface i => simp [find_module_loop, ih, List.filterMap_cons]
    | struct s => simp [find_module_loop, ih, List.filterMap_cons]
    | union u => simp [find_module_loop, ih, List.filterMap_cons]
    | enum e => simp [find_module_loop, ih, List.filterMap_cons]
    | const c => simp [find_module_loop, ih, List.filterMap_cons]

theorem check_semantics_module_eq_head (text : List Char) (mojom : MojomFile) :
    (check_semantics text mojom).module = (moduleStmts mojom).head? := by
  have h := find_module_loop_none text mojom.stmts []
  show (find_module text mojom).1 = _
  rw [show find_module text mojom = find_module_loop text mojom.stmts none [] from rfl, h]
  rcases hms : mojom.stmts.filterMap (fun | .module m => some m | _ => none) with _ | ⟨kept, rest⟩ <;>
    simp [moduleStmts, hms]

/-- C3: semantic analysis keeps the first `Module` statement as the accepted
module of `Analysis.module` (so at most one module is ever accepted), and the
single-statement pass `find_module` produces exactly `k - 1` diagnostics for a
file with `k` module statements, one attached (via `create_diagnostic`) to the
name range of each module statement from the 2nd through the k-th, in source
order. -/
theorem C3_single_module_rule (text : List Char) (mojom : MojomFile) :
    (check_semantics text mojom).module = (moduleStmts mojom).head? ∧
    (find_module text mojom).2 =
      (match moduleStmts mojom with
        | [] => []
        | kept :: rest =>
          rest.map fun m =>
            create_diagnostic text m.name (duplicateModuleMessage text kept m)) ∧
    (find_module text mojom).2.length = (moduleStmts mojom).length - 1 := by
  have h := find_module_loop_none text mojom.stmts []
  have hfm : find_module text mojom = find_module_loop text mojom.stmts none [] := rfl
  refine ⟨check_semantics_module_eq_head text mojom, ?_, ?_⟩
  · rw [hfm, h]
    rcases hms : mojom.stmts.filterMap (fun | .module m => some m | _ => none) with _ | ⟨kept, rest⟩ <;>
      simp [moduleStmts, hms]
  · rw [hfm, h]
    rcases hms : mojom.stmts.filterMap (fun | .module m => some m | _ => none) with _ | ⟨kept, rest⟩ <;>
      simp [moduleStmts, hms]

/-! ## Declaration names and the keyword check (C9) -/

/-- The name of an interface member. -/
def interfaceMemberName : InterfaceMember → Range
  | .const c => c.name
  | .enum e => e.name
  | .method m => m.name

/-- The name of a struct member. -/
def structBodyName : StructBody → Range
  | .const c => c.name
  | .enum e => e.name
  | .field f => f.name

/-- The name ranges a statement contributes to the preorder name walk (an
imported path is not a name and contributes nothing). -/
def stmtNames : Statement → List Range
  | .module m => [m.name]
  | .imp _ => []
  | .interface i => i.name :: i.members.map interfaceMemberName
  | .struct s => s.name :: s.members.map structBodyName
  | .union u => [u.name]
  | .enum e => [e.name]
  | .const c => [c.name]

/-- All declaration name ranges of a file, in preorder. -/
def declNames (mojom : MojomFile) : List Range :=
  mojom.stmts.flatMap stmtNames

theorem traversalName_interfaceMemberEvent (m : InterfaceMember) :
    traversalName (interfaceMemberEvent m) = some (interfaceMemberName m) := by
  cases m <;> rfl

theorem traversalName_structBodyEvent (m : StructBody) :
    traversalName (structBodyEvent m) = some (structBodyName m) := by
  cases m <;> rfl

theorem filterMap_traversalName_map_intf (l : List InterfaceMember) :
    (l.map interfaceMemberEvent).filterMap traversalName = l.map interfaceMemberName := by
  induction l with
  | nil => rfl
  | cons m rest ih =>
    simp only [List.map_cons, List.filterMap_cons, traversalName_interfaceMemberEvent, ih]

theorem filterMap_traversalName_map_strct (l : List StructBody) :
    (l.map structBodyEvent).filterMap traversalName = l.map structBodyName := by
  induction l with
  | nil => rfl
  | cons m rest ih =>
    simp only [List.map_cons, List.filterMap_cons, traversalName_structBodyEvent, ih]

theorem filterMap_traversalName_stmtEvents (s : Statement) :
    (stmtEvents s).filterMap traversalName = stmtNames s := by
  cases s with
  | interface i =>
    simp only [stmtEvents, stmtNames, List.cons_append, List.filterMap_cons,
      List.filterMap_append, filterMap_traversalName_map_intf, traversalName,
      List.filterMap_nil, List.append_nil]
  | struct s =>
    simp only [stmtEvents, stmtNames, List.cons_append, List.filterMap_cons,
      List.filterMap_append, filterMap_traversalName_map_strct, traversalName,
      List.filterMap_nil, List.append_nil]
  | module m => rfl
  | imp i => rfl
  | union u => rfl
  | enum e => rfl
  | const c => rfl

theorem filterMap_traversalName_flatMap (stmts : List Statement) :
    (stmts.flatMap stmtEvents).filterMap traversalName = stmts.flatMap stmtNames := by
  induction stmts with
  | nil => rfl
  | cons s rest ih =>
    simp only [List.flatMap_cons, List.filterMap_append,
      filterMap_traversalName_stmtEvents, ih]

theorem machineRun_filterMap_traversalName (mojom : MojomFile) :
    (machineRun mojom).filterMap traversalName = declNames mojom := by
  rw [machineRun_eq_specEvents]
  simp [specEvents, List.filterMap_cons, List.filterMap_append, traversalName,
    declNames, filterMap_traversalName_flatMap]

theorem check_invalid_keywords_eq (text : List Char) (mojom : MojomFile) :
    check_invalid_keywords text mojom =
      ((declNames mojom).filter fun range => is_keyword (slice text range)).map
        fun range =>
          create_diagnostic text range ("Unexpected keyword: ".toList ++ slice text range) := by
  unfold check_invalid_keywords
  rw [machineRun_filterMap_traversalName]

/-- C9: `check_semantics` additionally emits, for every named declaration of
the tree (module, interface, struct, method, union, enum, const, struct
field), exactly one Error diagnostic with message `Unexpected keyword: <name>`
on the name's range whenever the name text is one of the keywords enumerated
by `is_keyword`; that enumeration repeats `uint8` and omits `uint16`, so a
declaration named `uint16` produces no such diagnostic while all the other
numeric type names do. -/
theorem C9_keyword_diagnostics (text : List Char) (mojom : MojomFile) :
    check_invalid_keywords text mojom =
      ((declNames mojom).filter fun range => is_keyword (slice text range)).map
        (fun range =>
          create_diagnostic text range ("Unexpected keyword: ".toList ++ slice text range)) ∧
    (check_semantics text mojom).diagnostics =
      (find_module text mojom).2 ++ check_invalid_keywords text mojom ∧
    is_keyword "uint16".toList = false ∧
    (is_keyword "bool".toList ∧ is_keyword "int8".toList ∧ is_keyword "uint8".toList ∧
      is_keyword "int16".toList ∧ is_keyword "int32".toList ∧ is_keyword "uint32".toList ∧
      is_keyword "int64".toList ∧ is_keyword "uint64".toList ∧ is_keyword "float".toList ∧
      is_keyword "double".toList) ∧
    check_invalid_keywords "enum uint16;".toList ⟨[.enum ⟨⟨5, 11⟩, []⟩]⟩ = [] ∧
    check_invalid_keywords "enum int16;".toList ⟨[.enum ⟨⟨5, 10⟩, []⟩]⟩ =
      [create_diagnostic "enum int16;".toList ⟨5, 10⟩
        ("Unexpected keyword: ".toList ++ "int16".toList)] := by
  refine ⟨check_invalid_keywords_eq text mojom, rfl, by decide, by decide, ?_, ?_⟩
  · rw [check_invalid_keywords_eq]
    decide
  · rw [check_invalid_keywords_eq]
    decide

/-! ## `MojomAst` (`src/server/src/mojomast.rs` and
`src/mojom-lsp/src/server/mojomast.rs`) -/

/-- The analysis task's document record (`MojomAst`): uri, text, tree and the
stored module field. -/
structure MojomAst where
  uri : String
  text : List Char
  mojom : MojomFile
  module : Option Module
  deriving DecidableEq, Repr

/-- The `find_module_stmt` helper of `src/server/src/mojomast.rs`: return the
first `Module` statement of the tree (its comment says it assumes the tree has
only one module, "which should be checked in semantics analysis"). -/
def find_module_stmt : List Statement → Option Module
  | [] => none
  | .module m :: _ => some m
  | _ :: rest => find_module_stmt rest

/-- `MojomAst::from_mojom` of the server crate (`src/server/src/mojomast.rs`):
the module field is computed by the generic first-module scan
`find_module_stmt`; `MojomAst::new` does the same after parsing. -/
def MojomAst.from_mojom (uri : String) (text : List Char) (mojom : MojomFile) : MojomAst :=
  { uri := uri, text := text, mojom := mojom, module := find_module_stmt mojom.stmts }

/-- `MojomAst::from_mojom` of the mojom-lsp crate
(`src/mojom-lsp/src/server/mojomast.rs`): the module field is supplied by the
caller; `imported_files.rs` passes `check_semantics(..).module`. -/
def MojomAst.from_mojom_lsp (uri : String) (text : List Char) (mojom : MojomFile)
    (module : Option Module) : MojomAst :=
  { uri := uri, text := text, mojom := mojom, module := module }

/-- The `text(&self, field)` method of `MojomAst`: slice the source text at a
range. -/
def MojomAst.textAt (ast : MojomAst) (field : Range) : List Char :=
  slice ast.text field

/-- The `module_name` method of `MojomAst`. -/
def MojomAst.module_name (ast : MojomAst) : Option (List Char) :=
  ast.module.map fun m => ast.textAt m.name

theorem find_module_stmt_eq_head (stmts : List Statement) :
    find_module_stmt stmts =
      (stmts.filterMap fun | .module m => some m | _ => none).head? := by
  induction stmts with
  | nil => rfl
  | cons s rest ih => cases s <;> simp [find_module_stmt, List.filterMap_cons, ih]

/-- A concrete source text with two module statements, `a` at 7..8 and `b` at
17..18. -/
def twoModuleText : List Char := "module a;\nmodule b;\n".toList

/-- The tree of `twoModuleText`. -/
def twoModuleFile : MojomFile := ⟨[.module ⟨⟨7, 8⟩⟩, .module ⟨⟨17, 18⟩⟩]⟩

/-- C6, counterexample: the claim says the stored module field "is populated
only when semantic analysis accepts the file as having at most one module
statement" and "is not derived from a generic first-module-statement scan of
the tree".  On a file with two module statements semantic analysis emits a
duplicate-module diagnostic (it does not accept the file as having at most
one), yet `MojomAst::from_mojom` of the server crate still populates the field
with the first module, computed by the first-module scan `find_module_stmt`. -/
theorem C6_module_field_cex :
    (MojomAst.from_mojom "file:///a.mojom" twoModuleText twoModuleFile).module =
      some ⟨⟨7, 8⟩⟩ ∧
    moduleStmts twoModuleFile = [⟨⟨7, 8⟩⟩, ⟨⟨17, 18⟩⟩] ∧
    (check_semantics twoModuleText twoModuleFile).diagnostics.length = 1 := by
  have hkw : check_invalid_keywords twoModuleText twoModuleFile = [] := by
    rw [check_invalid_keywords_eq]
    decide
  refine ⟨by decide, by decide, ?_⟩
  show ((find_module twoModuleText twoModuleFile).2 ++
      check_invalid_keywords twoModuleText twoModuleFile).length = 1
  rw [hkw]
  decide

/-- C6, amended: the stored module field equals the first `Module` statement
of the tree; in the server crate it is literally computed by the first-module
scan `find_module_stmt`, and this coincides with the module accepted by
semantic analysis (which also keeps the first), so the field always equals the
semantically accepted module - but it is populated even when the file has more
than one module statement. -/
theorem C6_module_field (uri : String) (text : List Char) (mojom : MojomFile) :
    (MojomAst.from_mojom uri text mojom).module = find_module_stmt mojom.stmts ∧
    find_module_stmt mojom.stmts = (check_semantics text mojom).module ∧
    (MojomAst.from_mojom_lsp uri text mojom (check_semantics text mojom).module).module =
      (check_semantics text mojom).module := by
  refine ⟨rfl, ?_, rfl⟩
  rw [find_module_stmt_eq_head]
  exact (check_semantics_module_eq_head text mojom).symm

/-! ## Go-to-definition (`src/mojom-lsp/src/server/definition.rs`,
`src/server/src/imported_files.rs`, `src/server/src/diagnostic.rs`)

`find_definition_preorder` walks the preorder events of the current tree with
a path stack of enclosing interface/struct names and returns the first match;
the server crate's visitor-based `find_definition` performs the same walk with
the same match set.  The imported-files cache is scanned afterwards. -/

/-- `create_lsp_range` of `definition.rs` (mojom-lsp): convert a byte range to
a zero-based LSP range using the document's own text. -/
def create_lsp_range (ast : MojomAst) (field : Range) : LspRange :=
  let pos := lineCol0 ast.text field.start
  let pos2 := lineCol0 ast.text field.stop
  ⟨⟨pos.line, pos.col⟩, ⟨pos2.line, pos2.col⟩⟩

/-- `path.join(".")` on the name stack. -/
def joinPath (path : List (List Char)) : List Char :=
  List.intercalate ['.'] path

/-- The `match_field` helper of `definition.rs`: push the name, join the path
with dots, pop, and compare with the target identifier. -/
def match_field (target : List Char) (field : Range) (ast : MojomAst)
    (path : List (List Char)) : Option Location :=
  let name := ast.textAt field
  let ident := joinPath (path ++ [name])
  if ident = target then some ⟨ast.uri, create_lsp_range ast field⟩ else none

/-- The event loop of `find_definition_preorder`, with the path stack made
explicit.  Only `EnterInterface`/`EnterStruct` and the `Union`/`Enum`/`Const`
leaves are matched; every other event falls into the catch-all arm. -/
def find_definition_loop (target : List Char) (ast : MojomAst) :
    List Traversal → List (List Char) → Option Location
  | [], _ => none
  | .enterInterface node :: rest, path =>
    (match match_field target node.name ast path with
      | some loc => some loc
      | none => find_definition_loop target ast rest (path ++ [ast.textAt node.name]))
  | .leaveInterface _ :: rest, path => find_definition_loop target ast rest path.dropLast
  | .enterStruct node :: rest, path =>
    (match match_field target node.name ast path with
      | some loc => some loc
      | none => find_definition_loop target ast rest (path ++ [ast.textAt node.name]))
  | .leaveStruct _ :: rest, path => find_definition_loop target ast rest path.dropLast
  | .union node :: rest, path =>
    (match match_field target node.name ast path with
      | some loc => some loc
      | none => find_definition_loop target ast rest path)
  | .enum node :: rest, path =>
    (match match_field target node.name ast path with
      | some loc => some loc
      | none => find_definition_loop target ast rest path)
  | .const node :: rest, path =>
    (match match_field target node.name ast path with
      | some loc => some loc
      | none => find_definition_loop target ast rest path)
  | _ :: rest, path => find_definition_loop target ast rest path

/-- `find_definition_preorder` of `definition.rs`. -/
def find_definition_preorder (ident : List Char) (ast : MojomAst) : Option Location :=
  find_definition_loop ident ast (machineRun ast.mojom) []

/-! ### The matchable qualified names, structurally -/

/-- Qualified (name, range) pairs an interface member contributes to the
definition search: consts and enums, not methods. -/
def interfaceMemberTargets (text : List Char) (path : List (List Char)) :
    InterfaceMember → List (List Char × Range)
  | .const c => [(joinPath (path ++ [slice text c.name]), c.name)]
  | .enum e => [(joinPath (path ++ [slice text e.name]), e.name)]
  | .method _ => []

/-- Qualified (name, range) pairs a struct member contributes: consts and
enums, not fields. -/
def structBodyTargets (text : List Char) (path : List (List Char)) :
    StructBody → List (List Char × Range)
  | .const c => [(joinPath (path ++ [slice text c.name]), c.name)]
  | .enum e => [(joinPath (path ++ [slice text e.name]), e.name)]
  | .field _ => []

/-- Qualified (name, range) pairs a statement contributes, in preorder. -/
def stmtTargets (text : List Char) (path : List (List Char)) :
    Statement → List (List Char × Range)
  | .module _ => []
  | .imp _ => []
  | .interface i =>
    (joinPath (path ++ [slice text i.name]), i.name) ::
      i.members.flatMap (interfaceMemberTargets text (path ++ [slice text i.name]))
  | .struct s =>
    (joinPath (path ++ [slice text s.name]), s.name) ::
      s.members.flatMap (structBodyTargets text (path ++ [slice text s.name]))
  | .union u => [(joinPath (path ++ [slice text u.name]), u.name)]
  | .enum e => [(joinPath (path ++ [slice text e.name]), e.name)]
  | .const c => [(joinPath (path ++ [slice text c.name]), c.name)]

/-- All qualified names the definition search can match, in preorder. -/
def declTargets (text : List Char) (mojom : MojomFile) : List (List Char × Range) :=
  mojom.stmts.flatMap (stmtTargets text [])

/-- The first-match selector over a target list. -/
def targetMatch (ident : List Char) (ast : MojomAst) (p : List Char × Range) :
    Option Location :=
  if p.1 = ident then some ⟨ast.uri, create_lsp_range ast p.2⟩ else none

theorem match_field_eq (target : List Char) (field : Range) (ast : MojomAst)
    (path : List (List Char)) :
    match_field target field ast path =
      targetMatch target ast (joinPath (path ++ [slice ast.text field]), field) := by
  rfl

theorem find_definition_loop_members_intf (target : List Char) (ast : MojomAst)
    (path : List (List Char)) (rest : List Traversal) :
    ∀ members : List InterfaceMember,
      find_definition_loop target ast (members.map interfaceMemberEvent ++ rest) path =
        ((members.flatMap (interfaceMemberTargets ast.text path)).findSome?
            (targetMatch target ast)).or
          (find_definition_loop target ast rest path) := by
  intro members
  induction members with
  | nil => simp
  | cons m rest2 ih =>
    cases m with
    | const c =>
      simp only [List.map_cons, interfaceMemberEvent, List.cons_append,
        find_definition_loop, List.flatMap_cons, interfaceMemberTargets, structBodyTargets,
        List.cons_append, List.findSome?_cons, match_field_eq, MojomAst.textAt]
      cases htm : targetMatch target ast (joinPath (path ++ [slice ast.text c.name]), c.name) with
      | some loc => simp [htm, Option.or]
      | none =>
        simp only [htm, List.nil_append]
        exact ih
    | enum e =>
      simp only [List.map_cons, interfaceMemberEvent, List.cons_append,
        find_definition_loop, List.flatMap_cons, interfaceMemberTargets, structBodyTargets,
        List.cons_append, List.findSome?_cons, match_field_eq, MojomAst.textAt]
      cases htm : targetMatch target ast (joinPath (path ++ [slice ast.text e.name]), e.name) with
      | some loc => simp [htm, Option.or]
      | none =>
        simp only [htm, List.nil_append]
        exact ih
    | method m =>
      simp only [List.map_cons, interfaceMemberEvent, List.cons_append,
        find_definition_loop, List.flatMap_cons, interfaceMemberTargets,
        List.nil_append]
      exact ih

theorem find_definition_loop_members_strct (target : List Char) (ast : MojomAst)
    (path : List (List Char)) (rest : List Traversal) :
    ∀ members : List StructBody,
      find_definition_loop target ast (members.map structBodyEvent ++ rest) path =
        ((members.flatMap (structBodyTargets ast.text path)).findSome?
            (targetMatch target ast)).or
          (find_definition_loop target ast rest path) := by
  intro members
  induction members with
  | nil => simp
  | cons m rest2 ih =>
    cases m with
    | const c =>
      simp only [List.map_cons, structBodyEvent, List.cons_append,
        find_definition_loop, List.flatMap_cons, interfaceMemberTargets, structBodyTargets,
        List.cons_append, List.findSome?_cons, match_field_eq, MojomAst.textAt]
      cases htm : targetMatch target ast (joinPath (path ++ [slice ast.text c.name]), c.name) with
      | some loc => simp [htm, Option.or]
      | none =>
        simp only [htm, List.nil_append]
        exact ih
    | enum e =>
      simp only [List.map_cons, structBodyEvent, List.cons_append,
        find_definition_loop, List.flatMap_cons, interfaceMemberTargets, structBodyTargets,
        List.cons_append, List.findSome?_cons, match_field_eq, MojomAst.textAt]
      cases htm : targetMatch target ast (joinPath (path ++ [slice ast.text e.name]), e.name) with
      | some loc => simp [htm, Option.or]
      | none =>
        simp only [htm, List.nil_append]
        exact ih
    | field f =>
      simp only [List.map_cons, structBodyEvent, List.cons_append,
        find_definition_loop, List.flatMap_cons, structBodyTargets,
        List.nil_append]
      exact ih

theorem find_definition_loop_stmt (target : List Char) (ast : MojomAst)
    (s : Statement) (rest : List Traversal) (path : List (List Char)) :
    find_definition_loop target ast (stmtEvents s ++ rest) path =
      ((stmtTargets ast.text path s).findSome? (targetMatch target ast)).or
        (find_definition_loop target ast rest path) := by
  cases s with
  | module m => simp [stmtEvents, find_definition_loop, stmtTargets, Option.or]
  | imp i => simp [stmtEvents, find_definition_loop, stmtTargets, Option.or]
  | union u =>
    simp only [stmtEvents, List.cons_append, List.nil_append, find_definition_loop,
      stmtTargets, List.findSome?_cons, List.findSome?_nil, match_field_eq, MojomAst.textAt]
    cases htm : targetMatch target ast (joinPath (path ++ [slice ast.text u.name]), u.name) <;>
      simp [htm, Option.or]
  | enum e =>
    simp only [stmtEvents, List.cons_append, List.nil_append, find_definition_loop,
      stmtTargets, List.findSome?_cons, List.findSome?_nil, match_field_eq, MojomAst.textAt]
    cases htm : targetMatch target ast (joinPath (path ++ [slice ast.text e.name]), e.name) <;>
      simp [htm, Option.or]
  | const c =>
    simp only [stmtEvents, List.cons_append, List.nil_append, find_definition_loop,
      stmtTargets, List.findSome?_cons, List.findSome?_nil, match_field_eq, MojomAst.textAt]
    cases htm : targetMatch target ast (joinPath (path ++ [slice ast.text c.name]), c.name) <;>
      simp [htm, Option.or]
  | interface i =>
    simp only [stmtEvents, List.cons_append, find_definition_loop, stmtTargets,
      List.findSome?_cons, match_field_eq, MojomAst.textAt]
    cases htm : targetMatch target ast (joinPath (path ++ [slice ast.text i.name]), i.name) with
    | some loc => simp [htm, Option.or]
    | none =>
      simp only [htm, Option.or]
      simp only [List.append_eq, List.append_assoc, List.singleton_append]
      rw [find_definition_loop_members_intf]
      cases hfm : (i.members.flatMap
          (interfaceMemberTargets ast.text (path ++ [slice ast.text i.name]))).findSome?
          (targetMatch target ast) with
      | some loc => simp [hfm, Option.or]
      | none =>
        simp only [hfm, Option.or]
        show find_definition_loop target ast rest (path ++ [slice ast.text i.name]).dropLast = _
        rw [List.dropLast_concat]
  | struct st =>
    simp only [stmtEvents, List.cons_append, find_definition_loop, stmtTargets,
      List.findSome?_cons, match_field_eq, MojomAst.textAt]
    cases htm : targetMatch target ast (joinPath (path ++ [slice ast.text st.name]), st.name) with
    | some loc => simp [htm, Option.or]
    | none =>
      simp only [htm, Option.or]
      simp only [List.append_eq, List.append_assoc, List.singleton_append]
      rw [find_definition_loop_members_strct]
      cases hfm : (st.members.flatMap
          (structBodyTargets ast.text (path ++ [slice ast.text st.name]))).findSome?
          (targetMatch target ast) with
      | some loc => simp [hfm, Option.or]
      | none =>
        simp only [hfm, Option.or]
        show find_definition_loop target ast rest (path ++ [slice ast.text st.name]).dropLast = _
        rw [List.dropLast_concat]

theorem find_definition_loop_stmts (target : List Char) (ast : MojomAst)
    (path : List (List Char)) (rest : List Traversal) :
    ∀ stmts : List Statement,
      find_definition_loop target ast (stmts.flatMap stmtEvents ++ rest) path =
        ((stmts.flatMap (stmtTargets ast.text path)).findSome?
            (targetMatch target ast)).or
          (find_definition_loop target ast rest path) := by
  intro stmts
  induction stmts with
  | nil => simp
  | cons s rest2 ih =>
    simp only [List.flatMap_cons, List.append_assoc]
    rw [find_definition_loop_stmt, ih, List.findSome?_append]
    cases hs : (stmtTargets ast.text path s).findSome? (targetMatch target ast) <;>
      simp [hs, Option.or, Option.orElse]

theorem find_definition_preorder_eq (ident : List Char) (ast : MojomAst) :
    find_definition_preorder ident ast =
      (declTargets ast.text ast.mojom).findSome? (targetMatch ident ast) := by
  unfold find_definition_preorder
  rw [machineRun_eq_specEvents]
  show find_definition_loop ident ast
      (ast.mojom.stmts.flatMap stmtEvents ++ [Traversal.leaveMojomFile ast.mojom]) [] = _
  rw [find_definition_loop_stmts]
  show Option.or _ (find_definition_loop ident ast [] []) = _
  cases hs : (ast.mojom.stmts.flatMap (stmtTargets ast.text [])).findSome?
      (targetMatch ident ast) <;>
    simp [hs, Option.or, declTargets, find_definition_loop]

/-! ### The imported-files cache (`src/server/src/imported_files.rs`) -/

/-- Import resolution errors (`ImportError` in `imported_files.rs`). -/
inductive ImportError where
  | ioError
  | notFound (path : List Char)
  | syntaxError (msg : List Char)
  deriving DecidableEq, Repr

/-- One resolved definition of an imported file (`ImportDefinition`). -/
structure ImportDefinition where
  ident : List Char
  range : LspRange
  deriving DecidableEq, Repr

/-- A successfully parsed import (the struct named `Import` in
`imported_files.rs`; renamed to avoid the clash with the AST's `Import`). -/
structure ImportedEntry where
  uri : String
  module_name : Option (List Char)
  definitions : List ImportDefinition
  deriving DecidableEq, Repr

/-- The imported-file cache (`ImportedFiles`): one success-or-error entry
per import statement of the current document. -/
structure ImportedFiles where
  parsed_imports : List (Except ImportError ImportedEntry)

/-- The inner loop of `ImportedFiles::find_definition`: for each definition,
first the bare qualified ident, then (when the import declared a module) the
module-prefixed `module.ident` form. -/
def import_find_in_defs (uri : String) (module_name : Option (List Char))
    (ident : List Char) : List ImportDefinition → Option Location
  | [] => none
  | d :: rest =>
    if d.ident = ident then some ⟨uri, d.range⟩
    else
      match module_name with
      | some m =>
        if m ++ '.' :: d.ident = ident then some ⟨uri, d.range⟩
        else import_find_in_defs uri module_name ident rest
      | none => import_find_in_defs uri module_name ident rest

/-- The outer loop of `ImportedFiles::find_definition`: skip error entries,
return the first hit. -/
def imports_find_loop (ident : List Char) :
    List (Except ImportError ImportedEntry) → Option Location
  | [] => none
  | .error _ :: rest => imports_find_loop ident rest
  | .ok entry :: rest =>
    (match import_find_in_defs entry.uri entry.module_name ident entry.definitions with
      | some loc => some loc
      | none => imports_find_loop ident rest)

/-- `ImportedFiles::find_definition` of `imported_files.rs`. -/
def ImportedFiles.find_definition (files : ImportedFiles) (ident : List Char) :
    Option Location :=
  imports_find_loop ident files.parsed_imports

/-- `find_definition_in_doc` of `diagnostic.rs`; the server crate's
visitor-based `find_definition` performs the same preorder walk with the same
match arms (interface, struct, union, enum, const), so the preorder form of
`definition.rs` is used. -/
def find_definition_in_doc (ast : MojomAst) (ident : List Char) : Option Location :=
  find_definition_preorder ident ast

/-- `find_definition_in_imported_files` of `diagnostic.rs`. -/
def find_definition_in_imported_files (imported_files : Option ImportedFiles)
    (ident : List Char) : Option Location :=
  imported_files.bind fun files => files.find_definition ident

/-- The core of `Diagnostic::find_definition` once the identifier under the
cursor has been extracted: the current document first, the imported files
second. -/
def diag_find_definition (ident : List Char) (ast : MojomAst)
    (imported_files : Option ImportedFiles) : Option Location :=
  (find_definition_in_doc ast ident).or
    (find_definition_in_imported_files imported_files ident)

/-- The qualified names a cached import can match: for each definition its
qualified ident and, when the import declared a module, the module-prefixed
form. -/
def importEntryNames (entry : ImportedEntry) : List (List Char) :=
  entry.definitions.flatMap fun d =>
    d.ident :: (match entry.module_name with
      | some m => [m ++ '.' :: d.ident]
      | none => [])

/-- The successfully cached imports, in order. -/
def importedOkEntries : Option ImportedFiles → List ImportedEntry
  | none => []
  | some files =>
    files.parsed_imports.filterMap fun
      | .ok entry => some entry
      | .error _ => none

theorem import_find_in_defs_eq_none_iff (uri : String) (module_name : Option (List Char))
    (ident : List Char) :
    ∀ defs : List ImportDefinition,
      import_find_in_defs uri module_name ident defs = none ↔
        ident ∉ (defs.flatMap fun d =>
          d.ident :: (match module_name with
            | some m => [m ++ '.' :: d.ident]
            | none => [])) := by
  cases module_name with
  | none =>
    intro defs
    induction defs with
    | nil => simp [import_find_in_defs]
    | cons d rest ih =>
      by_cases hd : d.ident = ident
      · simp [import_find_in_defs, hd, eq_comm]
      · simp [import_find_in_defs, hd, ih, eq_comm, Ne.symm hd]
  | some m =>
    intro defs
    induction defs with
    | nil => simp [import_find_in_defs]
    | cons d rest ih =>
      by_cases hd : d.ident = ident
      · simp [import_find_in_defs, hd, eq_comm]
      · by_cases hm : m ++ '.' :: d.ident = ident
        · simp [import_find_in_defs, hd, hm, eq_comm]
        · simp [import_find_in_defs, hd, hm, ih, eq_comm, Ne.symm hd, Ne.symm hm]

theorem imports_find_loop_eq_none_iff (ident : List Char) :
    ∀ entries : List (Except ImportError ImportedEntry),
      imports_find_loop ident entries = none ↔
        ∀ entry ∈ (entries.filterMap fun
            | .ok entry => some entry
            | .error _ => none),
          ident ∉ importEntryNames entry := by
  intro entries
  induction entries with
  | nil => simp [imports_find_loop]
  | cons entry rest ih =>
    cases entry with
    | error e => simp [imports_find_loop, List.filterMap_cons, ih]
    | ok entry =>
      simp only [imports_find_loop, List.filterMap_cons]
      have hiff := import_find_in_defs_eq_none_iff entry.uri entry.module_name ident
        entry.definitions
      rw [show (entry.definitions.flatMap fun d =>
          d.ident :: (match entry.module_name with
            | some m => [m ++ '.' :: d.ident]
            | none => [])) = importEntryNames entry from rfl] at hiff
      cases hfd : import_find_in_defs entry.uri entry.module_name ident entry.definitions with
      | some loc =>
        rw [hfd] at hiff
        simp only [hfd]
        constructor
        · intro h; cases h
        · intro h
          exact absurd (hiff.mpr (h entry (by simp))) (by simp)
      | none =>
        rw [hfd] at hiff
        simp only [hfd, ih]
        simp [hiff.mp rfl]

theorem option_or_eq_none_iff (a b : Option Location) :
    a.or b = none ↔ a = none ∧ b = none := by
  cases a <;> cases b <;> simp [Option.or]

theorem targetMatch_eq_none_iff (ident : List Char) (ast : MojomAst)
    (p : List Char × Range) :
    targetMatch ident ast p = none ↔ p.1 ≠ ident := by
  unfold targetMatch
  split <;> simp_all

/-! ### C2 -/

/-- The qualified names the claim says the search matches: one for every leaf
declaration (including methods and struct fields) and each entered interface
or struct.  This follows the claim's words; the code matches a smaller set. -/
def claimMemberNames (text : List Char) (path : List (List Char)) :
    InterfaceMember → List (List Char)
  | .const c => [joinPath (path ++ [slice text c.name])]
  | .enum e => [joinPath (path ++ [slice text e.name])]
  | .method m => [joinPath (path ++ [slice text m.name])]

/-- Struct-member names under the claim's reading (fields included). -/
def claimStructMemberNames (text : List Char) (path : List (List Char)) :
    StructBody → List (List Char)
  | .const c => [joinPath (path ++ [slice text c.name])]
  | .enum e => [joinPath (path ++ [slice text e.name])]
  | .field f => [joinPath (path ++ [slice text f.name])]

/-- Statement names under the claim's reading. -/
def claimStmtNames (text : List Char) (path : List (List Char)) :
    Statement → List (List Char)
  | .module m => [joinPath (path ++ [slice text m.name])]
  | .imp _ => []
  | .interface i =>
    joinPath (path ++ [slice text i.name]) ::
      i.members.flatMap (claimMemberNames text (path ++ [slice text i.name]))
  | .struct st =>
    joinPath (path ++ [slice text st.name]) ::
      st.members.flatMap (claimStructMemberNames text (path ++ [slice text st.name]))
  | .union u => [joinPath (path ++ [slice text u.name])]
  | .enum e => [joinPath (path ++ [slice text e.name])]
  | .const c => [joinPath (path ++ [slice text c.name])]

/-- All qualified names formed from the tree under the claim's reading. -/
def claimQualifiedNames (text : List Char) (mojom : MojomFile) : List (List Char) :=
  mojom.stmts.flatMap (claimStmtNames text [])

/-- A document whose interface `I` (at 10..11) has a method `M` (at 14..15). -/
def methodText : List Char := "interface I \x7b M(); \x7d;".toList

/-- The tree of `methodText`. -/
def methodFile : MojomFile :=
  ⟨[.interface ⟨⟨10, 11⟩, [.method ⟨⟨14, 15⟩, none, [], none⟩]⟩]⟩

/-- The document record for `methodText`. -/
def methodAst : MojomAst := MojomAst.from_mojom_lsp "file:///b.mojom" methodText methodFile none

/-- C2, counterexample: the qualified name `I.M` is formed from a leaf
declaration (the method `M` inside interface `I`) exactly as the claim
describes, yet `GotoDefinition` returns `None` for it even with no cached
imports, because the search never matches `Method` (or `StructField`,
`Module`) leaves - only `Union`, `Enum`, `Const` leaves and entered
`Interface`/`Struct` nodes. -/
theorem C2_goto_definition_cex :
    diag_find_definition "I.M".toList methodAst none = none ∧
    "I.M".toList ∈ claimQualifiedNames methodText methodFile := by
  constructor
  · show (find_definition_in_doc methodAst "I.M".toList).or _ = none
    rw [show find_definition_in_doc methodAst "I.M".toList =
      find_definition_preorder "I.M".toList methodAst from rfl]
    rw [find_definition_preorder_eq]
    decide
  · decide

/-- C2, amended: `find_definition_preorder` returns the first preorder match
among the qualified names of entered `Interface`/`Struct` nodes and
`Union`/`Enum`/`Const` leaves (not all leaves: methods, struct fields and the
module name are never matched), as a `Location` carrying the document's uri
and the LSP conversion of the name's range; and the combined lookup of
`Diagnostic::find_definition` returns `None` iff the identifier matches none
of those qualified names and none of the (bare or module-prefixed) qualified
names of any successfully cached import. -/
theorem C2_goto_definition (ident : List Char) (ast : MojomAst)
    (imported_files : Option ImportedFiles) :
    find_definition_preorder ident ast =
      (declTargets ast.text ast.mojom).findSome? (targetMatch ident ast) ∧
    (diag_find_definition ident ast imported_files = none ↔
      (ident ∉ (declTargets ast.text ast.mojom).map Prod.fst ∧
        ∀ entry ∈ importedOkEntries imported_files, ident ∉ importEntryNames entry)) := by
  refine ⟨find_definition_preorder_eq ident ast, ?_⟩
  unfold diag_find_definition
  rw [option_or_eq_none_iff]
  have hdoc : find_definition_in_doc ast ident = none ↔
      ident ∉ (declTargets ast.text ast.mojom).map Prod.fst := by
    rw [show find_definition_in_doc ast ident = find_definition_preorder ident ast from rfl]
    rw [find_definition_preorder_eq, List.findSome?_eq_none_iff]
    constructor
    · intro h hmem
      rcases List.mem_map.mp hmem with ⟨p, hp, hfst⟩
      have := h p hp
      rw [targetMatch_eq_none_iff] at this
      exact this hfst
    · intro h p hp
      rw [targetMatch_eq_none_iff]
      intro hfst
      exact h (List.mem_map.mpr ⟨p, hp, hfst⟩)
  have himp : find_definition_in_imported_files imported_files ident = none ↔
      ∀ entry ∈ importedOkEntries imported_files, ident ∉ importEntryNames entry := by
    cases imported_files with
    | none => simp [find_definition_in_imported_files, importedOkEntries]
    | some files =>
      show files.find_definition ident = none ↔ _
      rw [show files.find_definition ident =
        imports_find_loop ident files.parsed_imports from rfl]
      rw [imports_find_loop_eq_none_iff]
      rfl
  rw [hdoc, himp]

/-! ## The Check procedure (`Diagnostic::check_syntax` in
`src/server/src/diagnostic.rs`)

`check_syntax` parses the text; on success it stores the new `MojomAst` and
publishes an empty diagnostics list, on failure it clears the tree and
publishes a single diagnostic at the error's position.  Exactly one
`textDocument/publishDiagnostics` notification is sent either way.  The parse
result is a parameter here; the grammar itself is modelled separately. -/

/-- pest's `LineColLocation` (re-exported by the syntax crate): either a
point or a span, one-based. -/
inductive LineColLocation where
  | pos (lc : Nat × Nat)
  | span (start stop : Nat × Nat)
  deriving DecidableEq, Repr

/-- A syntax error as `diagnostic.rs` consumes it: the pest location plus the
rendered message (`err.to_string()`). -/
structure ParseError where
  line_col : LineColLocation
  msg : List Char
  deriving DecidableEq, Repr

/-- `convert_error_position` of `diagnostic.rs`: one-based pest positions to a
zero-based LSP range; a point error yields a zero-width range. -/
def convert_error_position : LineColLocation → LspRange
  | .pos lc => ⟨⟨lc.1 - 1, lc.2 - 1⟩, ⟨lc.1 - 1, lc.2 - 1⟩⟩
  | .span sp ep => ⟨⟨sp.1 - 1, sp.2 - 1⟩, ⟨ep.1 - 1, ep.2 - 1⟩⟩

/-- `lsp_types::PublishDiagnosticsParams`. -/
structure PublishDiagnosticsParams where
  uri : String
  diagnostics : List Diagnostic
  deriving DecidableEq, Repr

/-- An outgoing notification (`NotificationMessage` in `protocol.rs`); the
params stay typed here since only `publishDiagnostics` is modelled. -/
structure NotificationMessage where
  method : String
  params : PublishDiagnosticsParams
  deriving DecidableEq, Repr

/-- The diagnostic built for a syntax error in `check_syntax`. -/
def syntax_error_diagnostic (err : ParseError) : Diagnostic :=
  { range := convert_error_position err.line_col
    severity := some .error
    code := some "mojom"
    source := some "mojom-lsp"
    message := err.msg }

/-- `Diagnostic::check_syntax`, with the parse outcome (`MojomAst::new`) as an
explicit argument.  Returns the new stored tree and the list of notifications
sent through the message sender (always exactly one `publishDiagnostics`). -/
def check_syntax_with (uri : String) (text : List Char)
    (res : Except ParseError MojomFile) : Option MojomAst × List NotificationMessage :=
  match res with
  | .ok mojom =>
    (some (MojomAst.from_mojom uri text mojom),
      [⟨"textDocument/publishDiagnostics", ⟨uri, []⟩⟩])
  | .error err =>
    (none,
      [⟨"textDocument/publishDiagnostics", ⟨uri, [syntax_error_diagnostic err]⟩⟩])

/-- C4, counterexample: for a text whose parse succeeds but whose semantic
analysis has findings (two module statements), `check_syntax` publishes an
empty list - not the semantic diagnostics list, which is nonempty.  The claim
that the published list is "the diagnostics list produced by semantic
analysis" fails on this input. -/
theorem C4_check_publishes_cex :
    (check_syntax_with "file:///a.mojom" twoModuleText (.ok twoModuleFile)).2 =
      [⟨"textDocument/publishDiagnostics", ⟨"file:///a.mojom", []⟩⟩] ∧
    (check_semantics twoModuleText twoModuleFile).diagnostics ≠ [] := by
  refine ⟨rfl, ?_⟩
  have hkw : check_invalid_keywords twoModuleText twoModuleFile = [] := by
    rw [check_invalid_keywords_eq]
    decide
  show (find_module twoModuleText twoModuleFile).2 ++
      check_invalid_keywords twoModuleText twoModuleFile ≠ []
  rw [hkw]
  decide

/-- C4, amended: every `Check` sends exactly one `publishDiagnostics`
notification for its uri.  When the parse fails the stored tree is cleared
and the published list holds exactly one diagnostic whose range is
`convert_error_position` of the error (a zero-width range for point errors).
When the parse succeeds the stored tree is replaced and the published list is
empty - semantic analysis is not consulted by this revision's check path, so
the notification is sent even though (and regardless of whether) semantic
findings exist. -/
theorem C4_check_publishes (uri : String) (text : List Char)
    (res : Except ParseError MojomFile) :
    (check_syntax_with uri text res).2.length = 1 ∧
    (∀ msg ∈ (check_syntax_with uri text res).2,
      msg.method = "textDocument/publishDiagnostics" ∧ msg.params.uri = uri) ∧
    (∀ err, res = .error err →
      (check_syntax_with uri text res).1 = none ∧
      (check_syntax_with uri text res).2 =
        [⟨"textDocument/publishDiagnostics", ⟨uri, [syntax_error_diagnostic err]⟩⟩] ∧
      ∀ lc, err.line_col = .pos lc →
        (syntax_error_diagnostic err).range.start = (syntax_error_diagnostic err).range.stop) ∧
    (∀ mojom, res = .ok mojom →
      (check_syntax_with uri text res).1 = some (MojomAst.from_mojom uri text mojom) ∧
      (check_syntax_with uri text res).2 =
        [⟨"textDocument/publishDiagnostics", ⟨uri, []⟩⟩]) := by
  refine ⟨?_, ?_, ?_, ?_⟩
  · cases res <;> rfl
  · intro msg hmsg
    cases res <;> simp only [check_syntax_with, List.mem_singleton] at hmsg <;>
      subst hmsg <;> exact ⟨rfl, rfl⟩
  · intro err herr
    subst herr
    refine ⟨rfl, rfl, ?_⟩
    intro lc hlc
    simp [syntax_error_diagnostic, hlc, convert_error_position]
  · intro mojom hok
    subst hok
    exact ⟨rfl, rfl⟩

/-- Witness for C4: both branches at concrete inputs. -/
theorem C4_check_publishes_witness :
    (check_syntax_with "file:///a.mojom" twoModuleText (.ok twoModuleFile)).1 =
      some (MojomAst.from_mojom "file:///a.mojom" twoModuleText twoModuleFile) ∧
    (check_syntax_with "file:///x.mojom" "x".toList
      (.error ⟨.pos (1, 3), "expected statement".toList⟩)).1 = none ∧
    (syntax_error_diagnostic ⟨.pos (1, 3), "expected statement".toList⟩).range.start =
      (syntax_error_diagnostic ⟨.pos (1, 3), "expected statement".toList⟩).range.stop := by
  refine ⟨?_, ?_, ?_⟩
  · exact ((C4_check_publishes "file:///a.mojom" twoModuleText (.ok twoModuleFile)).2.2.2
      twoModuleFile rfl).1
  · exact ((C4_check_publishes "file:///x.mojom" "x".toList
      (.error ⟨.pos (1, 3), "expected statement".toList⟩)).2.2.1
      ⟨.pos (1, 3), "expected statement".toList⟩ rfl).1
  · exact ((C4_check_publishes "file:///x.mojom" "x".toList
      (.error ⟨.pos (1, 3), "expected statement".toList⟩)).2.2.1
      ⟨.pos (1, 3), "expected statement".toList⟩ rfl).2.2 (1, 3) rfl

/-! ## The dispatch state machine (`src/mojom-lsp/src/server/server.rs`) -/

/-- The dispatch states (`State` in `server.rs`). -/
inductive State where
  | initialized
  | shuttingDown
  deriving DecidableEq, Repr

/-- The dispatch-relevant parts of `ServerContext`: the state machine and the
exit code slot.  The message-sender and analysis-thread handles live in their
own tasks. -/
structure ServerContext where
  state : State
  exit_code : Option Int
  deriving DecidableEq, Repr

/-- A JSON result value as the dispatch produces it: `null` or a location. -/
inductive JsonValue where
  | null
  | loc (l : Location)
  deriving DecidableEq, Repr

/-- A JSON-RPC error response payload (`ResponseError` in `protocol.rs`). -/
structure ResponseError where
  code : Int
  message : List Char
  deriving DecidableEq, Repr

/-- `ErrorCodes::InternalError`. -/
def internalErrorCode : Int := -32603

/-- `ErrorCodes::ServerNotInitialized`. -/
def serverNotInitializedCode : Int := -32002

/-- An outbound response of the dispatch loop. -/
inductive OutMessage where
  | successResponse (id : Nat) (result : JsonValue)
  | errorResponse (id : Nat) (error : ResponseError)
  deriving DecidableEq, Repr

/-- A decoded request method.  `initReq` is `initialize`; the analysis task's
one-shot reply for `textDocument/definition` is carried as the request's
`answer` (the reader blocks on the reply handle, so dispatch sees it
synchronously). -/
inductive RequestKind where
  | initReq
  | shutdown
  | exitReq
  | gotoDefinition (answer : Option Location)
  | other (method : String)
  deriving DecidableEq, Repr

/-- A decoded notification method.  `didOpen`/`didChange` forward to the
analysis task and leave the dispatch state untouched. -/
inductive NotificationKind where
  | exitNotif
  | didOpen (uri : String) (text : List Char)
  | didChange (uri : String) (texts : List (List Char))
  | other (method : String)
  deriving DecidableEq, Repr

/-- A dispatched message. -/
inductive Message where
  | request (id : Nat) (kind : RequestKind)
  | notification (kind : NotificationKind)
  deriving DecidableEq, Repr

/-- `exit_notification` of `server.rs`: exit code 0 exactly when the state is
`ShuttingDown`, 1 otherwise. -/
def exit_notification (ctx : ServerContext) : ServerContext :=
  if ctx.state = .shuttingDown then { ctx with exit_code := some 0 }
  else { ctx with exit_code := some 1 }

/-- The message of `unimplemented_request`. -/
def unimplementedMessage (id : Nat) (method : String) : List Char :=
  "Unimplemented request: id = ".toList ++ (toString id).toList ++
    " method = ".toList ++ method.toList

/-- `handle_request` of `server.rs`.  `exit` as a request is routed to
`exit_notification` before the method dispatch (the Eglot workaround) and
produces no response; `shutdown` flips the state and answers `null`. -/
def handle_request (ctx : ServerContext) (id : Nat) :
    RequestKind → ServerContext × List OutMessage
  | .exitReq => (exit_notification ctx, [])
  | .initReq =>
    (ctx, [.errorResponse id ⟨serverNotInitializedCode, "Unexpected initialize message".toList⟩])
  | .shutdown => ({ ctx with state := .shuttingDown }, [.successResponse id .null])
  | .gotoDefinition answer =>
    (ctx, [.successResponse id (match answer with
      | some l => .loc l
      | none => .null)])
  | .other method =>
    (ctx, [.errorResponse id ⟨internalErrorCode, unimplementedMessage id method⟩])

/-- `handle_notification` of `server.rs`, restricted to its effect on the
dispatch state: only `exit` changes it. -/
def handle_notification (ctx : ServerContext) : NotificationKind → ServerContext
  | .exitNotif => exit_notification ctx
  | .didOpen _ _ => ctx
  | .didChange _ _ => ctx
  | .other _ => ctx

/-- The main loop of `start` in `server.rs`: handle one message, then return
the exit code as soon as it is set.  `none` models the loop still reading when
the message list is exhausted. -/
def run_loop (ctx : ServerContext) : List Message → Option Int
  | [] => none
  | msg :: rest =>
    let ctx2 := match msg with
      | .request id kind => (handle_request ctx id kind).1
      | .notification kind => handle_notification ctx kind
    match ctx2.exit_code with
    | some code => some code
    | none => run_loop ctx2 rest

/-- C8: `shutdown` transitions the state machine to `ShuttingDown` and
returns the JSON `null` result; a subsequent `exit` - delivered as a
notification or as a request - sets the exit code to 0 exactly when the state
is `ShuttingDown` at that moment and to 1 in every other state, and
terminates the dispatch loop, which returns that exit code. -/
theorem C8_shutdown_exit (ctx : ServerContext) (id : Nat) (msgs : List Message) :
    (handle_request ctx id .shutdown).1.state = .shuttingDown ∧
    (handle_request ctx id .shutdown).2 = [.successResponse id .null] ∧
    (handle_request ctx id .exitReq).1.exit_code =
      some (if ctx.state = .shuttingDown then 0 else 1) ∧
    (handle_request ctx id .exitReq).2 = [] ∧
    (handle_notification ctx .exitNotif).exit_code =
      some (if ctx.state = .shuttingDown then 0 else 1) ∧
    run_loop ctx (.notification .exitNotif :: msgs) =
      some (if ctx.state = .shuttingDown then 0 else 1) ∧
    (ctx.exit_code = none →
      run_loop ctx (.request id .shutdown :: .notification .exitNotif :: msgs) = some 0) := by
  refine ⟨rfl, rfl, ?_, rfl, ?_, ?_, ?_⟩
  · show (exit_notification ctx).exit_code = _
    unfold exit_notification
    split <;> simp_all
  · show (exit_notification ctx).exit_code = _
    unfold exit_notification
    split <;> simp_all
  · by_cases hst : ctx.state = State.shuttingDown <;>
      simp [run_loop, handle_notification, exit_notification, hst]
  · intro hnone
    simp [run_loop, handle_request, handle_notification, exit_notification, hnone]

/-- Witness for C8: a fresh context, shutdown with id 2, then exit, exits
with code 0. -/
theorem C8_shutdown_exit_witness :
    (⟨State.initialized, none⟩ : ServerContext).exit_code = none ∧
    run_loop ⟨State.initialized, none⟩
      [.request 2 .shutdown, .notification .exitNotif] = some 0 :=
  ⟨rfl, (C8_shutdown_exit ⟨State.initialized, none⟩ 2 []).2.2.2.2.2.2 rfl⟩

/-! ## JSON-RPC header reading (`read_header` in `src/server/src/protocol.rs`;
the mojom-lsp crate's copy is identical in every aspect modelled here) -/

/-- `BufRead::read_line`: everything up to and including the first newline
(or the whole input at EOF), plus the remaining input. -/
def read_line : List Char → List Char × List Char
  | [] => ([], [])
  | '\n' :: rest => (['\n'], rest)
  | c :: rest =>
    let p := read_line rest
    (c :: p.1, p.2)

/-- `str::trim`, over ASCII whitespace. -/
def trim (l : List Char) : List Char :=
  ((l.dropWhile Char.isWhitespace).reverse.dropWhile Char.isWhitespace).reverse

/-- `str::split(": ")`: split on every (non-overlapping, left-to-right)
occurrence of the two-character separator. -/
def splitColonSpace : List Char → List (List Char)
  | [] => [[]]
  | [c] => [[c]]
  | c1 :: c2 :: rest =>
    if c1 = ':' ∧ c2 = ' ' then [] :: splitColonSpace rest
    else
      match splitColonSpace (c2 :: rest) with
      | [] => [[c1]]
      | seg :: segs => (c1 :: seg) :: segs

/-- `char::to_ascii_lowercase`. -/
def asciiLower (c : Char) : Char :=
  if 'A' ≤ c ∧ c ≤ 'Z' then Char.ofNat (c.toNat + 32) else c

/-- `str::to_ascii_lowercase`. -/
def lowerStr (l : List Char) : List Char :=
  l.map asciiLower

/-- Value of a digit string. -/
def digitsVal (l : List Char) : Nat :=
  l.foldl (fun a c => a * 10 + (c.toNat - 48)) 0

/-- `str::parse::<usize>`: optional leading `+`, then one or more ASCII
digits (overflow is not modelled; the claims do not touch it). -/
def parse_usize (l : List Char) : Option Nat :=
  let l2 := if l.head? = some '+' then l.tail else l
  if l2.isEmpty then none
  else if l2.all Char.isDigit then some (digitsVal l2) else none

/-- The error outcomes of `read_header`. -/
inductive HeaderError where
  | unexpectedEof
  | invalidHeader
  | invalidLength
  | noContentLength
  deriving DecidableEq, Repr

theorem read_line_rest_le (l : List Char) : (read_line l).2.length ≤ l.length := by
  induction l with
  | nil => simp [read_line]
  | cons c rest ih =>
    by_cases hc : c = '\n'
    · subst hc; simp [read_line]
    · rw [read_line]
      · simpa using Nat.le_succ_of_le ih
      · exact hc

theorem read_line_rest_lt (c : Char) (tl : List Char) :
    (read_line (c :: tl)).2.length < (c :: tl).length := by
  by_cases hc : c = '\n'
  · subst hc; simp [read_line]
  · rw [read_line]
    · simpa using Nat.lt_succ_of_le (read_line_rest_le tl)
    · exact hc

/-- The header loop of `read_header`: read a line; an empty read is EOF; a
bare `\r\n` terminates the block; otherwise trim, split on every `": "`,
require exactly two fields, lowercase the name, and record a parsed
`Content-Length` value.  On termination the recorded value (or its absence)
decides the result. -/
def read_header_loop : List Char → Option Nat → Except HeaderError (Nat × List Char)
  | [], _ => .error .unexpectedEof
  | c :: tl, content_length =>
    let p := read_line (c :: tl)
    if p.1 = "\r\n".toList then
      match content_length with
      | some n => .ok (n, p.2)
      | none => .error .noContentLength
    else
      match splitColonSpace (trim p.1) with
      | [name, value] =>
        if lowerStr name = "content-length".toList then
          match parse_usize value with
          | some n => read_header_loop p.2 (some n)
          | none => .error .invalidLength
        else read_header_loop p.2 content_length
      | _ => .error .invalidHeader
  termination_by input _ => input.length
  decreasing_by
  · exact read_line_rest_lt c tl
  · exact read_line_rest_lt c tl

/-- `read_header` of `protocol.rs`: returns the `Content-Length` and the
input remaining after the blank line. -/
def read_header (input : List Char) : Except HeaderError (Nat × List Char) :=
  read_header_loop input none

theorem digit_not_ws (c : Char) (h : c.isDigit = true) : c.isWhitespace = false := by
  by_contra hws
  simp only [Bool.not_eq_false] at hws
  simp only [Char.isWhitespace, Bool.or_eq_true, decide_eq_true_eq] at hws
  rcases hws with ((rfl | rfl) | rfl) | rfl <;> exact absurd h (by decide)

theorem digit_ne (c x : Char) (h : c.isDigit = true) (hx : x.isDigit = false) : c ≠ x := by
  intro heq
  subst heq
  rw [h] at hx
  cases hx

theorem all_digits_not_mem (ds : List Char) (h : ds.all Char.isDigit = true)
    (x : Char) (hx : x.isDigit = false) : x ∉ ds := by
  intro hmem
  have := List.all_eq_true.mp h x hmem
  exact absurd this (by simp [hx])

theorem parse_usize_digits (ds : List Char) (h1 : ds ≠ [])
    (h2 : ds.all Char.isDigit = true) : parse_usize ds = some (digitsVal ds) := by
  obtain ⟨d, ds', rfl⟩ := List.exists_cons_of_ne_nil h1
  have hd : d.isDigit = true := (List.all_eq_true.mp h2 d (by simp))
  have hdp : d ≠ '+' := digit_ne d '+' hd (by decide)
  simp [parse_usize, hdp, h2]

theorem read_line_append (xs : List Char) (rest : List Char) (h : '\n' ∉ xs) :
    read_line (xs ++ '\n' :: rest) = (xs ++ ['\n'], rest) := by
  induction xs with
  | nil => simp [read_line]
  | cons c xs ih =>
    have hc : c ≠ '\n' := fun heq => h (heq ▸ List.mem_cons_self c xs)
    have hxs : '\n' ∉ xs := fun hm => h (List.mem_cons_of_mem c hm)
    rw [List.cons_append, read_line]
    · rw [ih hxs]
      rfl
    · exact hc

theorem splitColonSpace_no_colon (xs : List Char) (h : ':' ∉ xs) :
    splitColonSpace xs = [xs] := by
  induction xs with
  | nil => rfl
  | cons c tail ih =>
    have hc : c ≠ ':' := fun heq => h (heq ▸ List.mem_cons_self c tail)
    have htail : ':' ∉ tail := fun hm => h (List.mem_cons_of_mem c hm)
    cases tail with
    | nil => rfl
    | cons c2 rest =>
      rw [splitColonSpace, if_neg (fun hand => hc hand.1), ih htail]

theorem splitColonSpace_sep (xs ys : List Char) (h : ':' ∉ xs) :
    splitColonSpace (xs ++ ':' :: ' ' :: ys) = xs :: splitColonSpace ys := by
  induction xs with
  | nil =>
    rw [List.nil_append, splitColonSpace, if_pos ⟨rfl, rfl⟩]
  | cons c xs ih =>
    have hc : c ≠ ':' := fun heq => h (heq ▸ List.mem_cons_self c xs)
    have hxs : ':' ∉ xs := fun hm => h (List.mem_cons_of_mem c hm)
    obtain ⟨d, tl2, hxx⟩ : ∃ d tl2, xs ++ ':' :: ' ' :: ys = d :: tl2 := by
      cases hxs2 : xs ++ ':' :: ' ' :: ys with
      | nil => exact absurd hxs2 (by simp)
      | cons d tl2 => exact ⟨d, tl2, rfl⟩
    rw [List.cons_append, hxx, splitColonSpace, if_neg (fun hand => hc hand.1),
      ← hxx, ih hxs]

theorem trim_wrap (L : List Char) (hL : L ≠ [])
    (hhead : ∀ c, L.head? = some c → c.isWhitespace = false)
    (hlast : ∀ c, L.getLast? = some c → c.isWhitespace = false) :
    trim (L ++ ['\r', '\n']) = L := by
  obtain ⟨c0, L', rfl⟩ := List.exists_cons_of_ne_nil hL
  have h0 : c0.isWhitespace = false := hhead c0 rfl
  unfold trim
  rw [List.cons_append, List.dropWhile_cons]
  rw [if_neg (by simp [h0])]
  rw [← List.cons_append, List.reverse_append]
  rw [show (['\r', '\n'] : List Char).reverse = '\n' :: ['\r'] from rfl]
  rw [List.cons_append, List.singleton_append]
  rw [List.dropWhile_cons, if_pos (by decide)]
  rw [List.dropWhile_cons, if_pos (by decide)]
  rcases hlrev : (c0 :: L').reverse with _ | ⟨d, rev'⟩
  · exact absurd (congrArg List.length hlrev) (by simp)
  · have hdl : (c0 :: L').getLast? = some d := by
      rw [← List.head?_reverse, hlrev]
      rfl
    have hd : d.isWhitespace = false := hlast d hdl
    rw [List.dropWhile_cons, if_neg (by simp [hd])]
    rw [← hlrev, List.reverse_reverse]

theorem read_header_loop_cons (c : Char) (tl : List Char) (cl : Option Nat) :
    read_header_loop (c :: tl) cl =
      (if (read_line (c :: tl)).1 = "\r\n".toList then
        match cl with
        | some n => Except.ok (n, (read_line (c :: tl)).2)
        | none => Except.error HeaderError.noContentLength
      else
        match splitColonSpace (trim (read_line (c :: tl)).1) with
        | [name, value] =>
          if lowerStr name = "content-length".toList then
            match parse_usize value with
            | some n => read_header_loop (read_line (c :: tl)).2 (some n)
            | none => Except.error HeaderError.invalidLength
          else read_header_loop (read_line (c :: tl)).2 cl
        | _ => Except.error HeaderError.invalidHeader) := by
  rw [read_header_loop.eq_def]

theorem read_header_loop_blank (rest : List Char) (cl : Option Nat) :
    read_header_loop ('\r' :: '\n' :: rest) cl =
      (match cl with
        | some n => Except.ok (n, rest)
        | none => Except.error HeaderError.noContentLength) := by
  have hline : read_line ('\r' :: '\n' :: rest) = ('\r' :: ['\n'], rest) := by
    rw [read_line]
    · rw [read_line]
    · decide
  rw [read_header_loop_cons, hline]
  have hcond : ((['\r', '\n'] : List Char), rest).1 = "\r\n".toList := rfl
  rw [if_pos hcond]

theorem read_header_loop_field (name value rest : List Char) (cl : Option Nat)
    (hnc : ':' ∉ name) (hvc : ':' ∉ value) (hnn : '\n' ∉ name) (hvn : '\n' ∉ value)
    (hname : name ≠ []) (hnhead : ∀ c, name.head? = some c → c.isWhitespace = false)
    (hval : value ≠ []) (hvlast : ∀ c, value.getLast? = some c → c.isWhitespace = false) :
    read_header_loop (name ++ ':' :: ' ' :: (value ++ '\r' :: '\n' :: rest)) cl =
      (if lowerStr name = "content-length".toList then
        match parse_usize value with
        | some n => read_header_loop rest (some n)
        | none => Except.error HeaderError.invalidLength
      else read_header_loop rest cl) := by
  obtain ⟨n0, name', rfl⟩ := List.exists_cons_of_ne_nil hname
  have hinput : (n0 :: name') ++ ':' :: ' ' :: (value ++ '\r' :: '\n' :: rest) =
      n0 :: (name' ++ ':' :: ' ' :: (value ++ '\r' :: '\n' :: rest)) := rfl
  rw [hinput, read_header_loop_cons, ← hinput]
  have hxs : '\n' ∉ (n0 :: name') ++ ':' :: ' ' :: (value ++ ['\r']) := by
    intro hm
    simp only [List.mem_append, List.mem_cons, List.mem_singleton] at hm
    rcases hm with (hm0 | hm1) | hm2 | hm3 | hm4 | hm5
    · exact hnn (by rw [hm0]; exact List.mem_cons_self n0 name')
    · exact hnn (List.mem_cons_of_mem n0 hm1)
    · exact absurd hm2 (by decide)
    · exact absurd hm3 (by decide)
    · exact hvn hm4
    · exact absurd hm5 (by decide)
  have hsplitin : (n0 :: name') ++ ':' :: ' ' :: (value ++ '\r' :: '\n' :: rest) =
      ((n0 :: name') ++ ':' :: ' ' :: (value ++ ['\r'])) ++ '\n' :: rest := by
    simp
  have hline : read_line ((n0 :: name') ++ ':' :: ' ' :: (value ++ '\r' :: '\n' :: rest)) =
      (((n0 :: name') ++ ':' :: ' ' :: (value ++ ['\r'])) ++ ['\n'], rest) := by
    rw [hsplitin]
    exact read_line_append _ rest hxs
  rw [hline]
  have hlineeq : ((n0 :: name') ++ ':' :: ' ' :: (value ++ ['\r'])) ++ ['\n'] =
      ((n0 :: name') ++ ':' :: ' ' :: value) ++ ['\r', '\n'] := by
    simp
  have hne : (((n0 :: name') ++ ':' :: ' ' :: (value ++ ['\r'])) ++ ['\n']) ≠
      "\r\n".toList := by
    intro heq
    have := congrArg List.length heq
    simp [String.toList] at this
    omega
  rw [if_neg hne]
  have htrim : trim (((n0 :: name') ++ ':' :: ' ' :: (value ++ ['\r'])) ++ ['\n']) =
      (n0 :: name') ++ ':' :: ' ' :: value := by
    rw [hlineeq]
    apply trim_wrap
    · simp
    · intro c hc
      rw [List.cons_append, List.head?_cons] at hc
      cases hc
      exact hnhead n0 rfl
    · intro c hc
      rw [show (n0 :: name') ++ ':' :: ' ' :: value =
        ((n0 :: name') ++ [':', ' ']) ++ value from by simp] at hc
      rw [List.getLast?_append_of_ne_nil _ hval] at hc
      exact hvlast c hc
  rw [htrim]
  have hsp : splitColonSpace ((n0 :: name') ++ ':' :: ' ' :: value) =
      [n0 :: name', value] := by
    rw [splitColonSpace_sep _ _ hnc, splitColonSpace_no_colon _ hvc]
  rw [hsp]

/-- Modelled from the spec (and the claim's wording): splitting a header line
on the FIRST `": "` separator only, yielding the name and the full remaining
value.  This is what the claim asserts `read_header` does; the code's
`splitColonSpace` splits on every occurrence instead. -/
def splitFirstColonSpace : List Char → Option (List Char × List Char)
  | [] => none
  | [_] => none
  | c1 :: c2 :: rest =>
    if c1 = ':' ∧ c2 = ' ' then some ([], rest)
    else (splitFirstColonSpace (c2 :: rest)).map fun p => (c1 :: p.1, p.2)

theorem read_header_loop_invalid (c : Char) (tl : List Char) (cl : Option Nat)
    (h1 : (read_line (c :: tl)).1 ≠ "\r\n".toList)
    (h2 : ∀ name value,
      splitColonSpace (trim (read_line (c :: tl)).1) ≠ [name, value]) :
    read_header_loop (c :: tl) cl = .error .invalidHeader := by
  rw [read_header_loop_cons, if_neg h1]
  rcases hf : splitColonSpace (trim (read_line (c :: tl)).1) with _ | ⟨a, _ | ⟨b, _ | ⟨d, tl4⟩⟩⟩
  · rfl
  · rfl
  · exact absurd hf (h2 a b)
  · rfl

theorem mem_of_getLast_digits (ds : List Char) (h2 : ds.all Char.isDigit = true) :
    ∀ c, ds.getLast? = some c → c.isWhitespace = false := by
  intro c hc
  exact digit_not_ws c (List.all_eq_true.mp h2 c (List.mem_of_mem_getLast? hc))

/-- C7, amended: `read_header` reads lines, trims each, and splits on EVERY
occurrence of `": "`; a line that does not produce exactly two fields is an
input error (so a header value containing `": "` is rejected, rather than
being returned as the remaining value); the field name is matched
case-insensitively (`Content-Length` and `content-length` both work); a
header block that terminates without a parseable `Content-Length` yields an
input error. -/
theorem C7_read_header (ds rest : List Char) (h1 : ds ≠ [])
    (h2 : ds.all Char.isDigit = true) :
    read_header ("Content-Length".toList ++ ':' :: ' ' ::
        (ds ++ '\r' :: '\n' :: ('\r' :: '\n' :: rest))) =
      .ok (digitsVal ds, rest) ∧
    read_header ("content-length".toList ++ ':' :: ' ' ::
        (ds ++ '\r' :: '\n' :: ('\r' :: '\n' :: rest))) =
      .ok (digitsVal ds, rest) ∧
    read_header ("X-Custom".toList ++ ':' :: ' ' ::
        ("value".toList ++ '\r' :: '\n' :: ('\r' :: '\n' :: rest))) =
      .error .noContentLength ∧
    read_header ('\r' :: '\n' :: rest) = .error .noContentLength := by
  have hcolon : ':' ∉ ds := all_digits_not_mem ds h2 ':' (by decide)
  have hnl : '\n' ∉ ds := all_digits_not_mem ds h2 '\n' (by decide)
  refine ⟨?_, ?_, ?_, ?_⟩
  · show read_header_loop _ none = _
    rw [read_header_loop_field "Content-Length".toList ds ('\r' :: '\n' :: rest) none
      (by decide) hcolon (by decide) hnl (by decide)
      (by intro c hc
          rw [show ("Content-Length".toList).head? = some 'C' from rfl] at hc
          cases hc
          decide)
      h1 (mem_of_getLast_digits ds h2)]
    rw [if_pos (by decide), parse_usize_digits ds h1 h2]
    show read_header_loop ('\r' :: '\n' :: rest) (some (digitsVal ds)) = _
    rw [read_header_loop_blank]
  · show read_header_loop _ none = _
    rw [read_header_loop_field "content-length".toList ds ('\r' :: '\n' :: rest) none
      (by decide) hcolon (by decide) hnl (by decide)
      (by intro c hc
          rw [show ("content-length".toList).head? = some 'c' from rfl] at hc
          cases hc
          decide)
      h1 (mem_of_getLast_digits ds h2)]
    rw [if_pos (by decide), parse_usize_digits ds h1 h2]
    show read_header_loop ('\r' :: '\n' :: rest) (some (digitsVal ds)) = _
    rw [read_header_loop_blank]
  · show read_header_loop _ none = _
    rw [read_header_loop_field "X-Custom".toList "value".toList ('\r' :: '\n' :: rest) none
      (by decide) (by decide) (by decide) (by decide) (by decide)
      (by intro c hc
          rw [show ("X-Custom".toList).head? = some 'X' from rfl] at hc
          cases hc
          decide)
      (by decide)
      (by intro c hc
          rw [show ("value".toList).getLast? = some 'e' from by decide] at hc
          cases hc
          decide)]
    rw [if_neg (by decide)]
    rw [read_header_loop_blank]
  · show read_header_loop _ none = _
    rw [read_header_loop_blank]

/-- Witness for C7 at a concrete header block. -/
theorem C7_read_header_witness :
    ("208".toList ≠ ([] : List Char)) ∧ "208".toList.all Char.isDigit = true ∧
    read_header ("Content-Length".toList ++ ':' :: ' ' ::
        ("208".toList ++ '\r' :: '\n' :: ('\r' :: '\n' :: "rest".toList))) =
      .ok (digitsVal "208".toList, "rest".toList) :=
  ⟨by decide, by decide,
    (C7_read_header "208".toList "rest".toList (by decide) (by decide)).1⟩

/-- C7, counterexample: the claim says a well-formed header line whose value
itself contains `": "` still yields the name and the full remaining value
(split on the first separator), and that `read_header` fails exactly when the
block ends without a parseable `Content-Length`.  But on a block whose first
line is `X-A: b: c` followed by a perfectly good `Content-Length: 5` line,
`read_header` returns an invalid-header error: it split the line on every
`": "` and found three fields.  The same block without the `X-A` line
succeeds with length 5. -/
theorem C7_read_header_cex :
    read_header ("X-A".toList ++ ':' :: ' ' ::
        ("b: c".toList ++ '\r' :: '\n' ::
          ("Content-Length".toList ++ ':' :: ' ' ::
            ("5".toList ++ '\r' :: '\n' :: ('\r' :: '\n' :: []))))) =
      .error .invalidHeader ∧
    splitFirstColonSpace (trim "X-A: b: c\r\n".toList) =
      some ("X-A".toList, "b: c".toList) ∧
    read_header ("Content-Length".toList ++ ':' :: ' ' ::
        ("5".toList ++ '\r' :: '\n' :: ('\r' :: '\n' :: []))) = .ok (5, []) := by
  refine ⟨?_, by decide, ?_⟩
  · show read_header_loop _ none = _
    have hin : "X-A".toList ++ ':' :: ' ' ::
        ("b: c".toList ++ '\r' :: '\n' ::
          ("Content-Length".toList ++ ':' :: ' ' ::
            ("5".toList ++ '\r' :: '\n' :: ('\r' :: '\n' :: [])))) =
        'X' :: "-A: b: c\r\nContent-Length: 5\r\n\r\n".toList := by decide
    rw [hin]
    apply read_header_loop_invalid
    · decide
    · intro name value h
      rw [show splitColonSpace (trim
          (read_line ('X' :: "-A: b: c\r\nContent-Length: 5\r\n\r\n".toList)).1) =
        ["X-A".toList, "b".toList, "c".toList] from by decide] at h
      have hlen := congrArg List.length h
      simp at hlen
  · show read_header_loop _ none = _
    rw [read_header_loop_field "Content-Length".toList "5".toList ('\r' :: '\n' :: []) none
      (by decide) (by decide) (by decide) (by decide) (by decide)
      (by intro c hc
          rw [show ("Content-Length".toList).head? = some 'C' from rfl] at hc
          cases hc
          decide)
      (by decide)
      (by intro c hc
          rw [show ("5".toList).getLast? = some '5' from by decide] at hc
          cases hc
          decide)]
    rw [if_pos (by decide)]
    rw [show parse_usize "5".toList = some 5 from by decide]
    show read_header_loop ('\r' :: '\n' :: []) (some 5) = _
    rw [read_header_loop_blank]

/-- UTF-8 byte length of a string (`str::len`). -/
def utf8Len (l : List Char) : Nat := (l.map Char.utf8Size).sum

/-- Prefix of a string up to byte offset `n` (`&text[..n]`); `none` models the
panic when `n` is past the end or not a character boundary. -/
def takeBytes (l : List Char) (n : Nat) : Option (List Char) :=
  if n = 0 then some []
  else match l with
    | [] => none
    | c :: cs =>
      if c.utf8Size ≤ n then (takeBytes cs (n - c.utf8Size)).map (fun t => c :: t)
      else none

/-- Suffix of a string from byte offset `n` (`&text[n..]`); `none` models the
panic when `n` is past the end or not a character boundary. -/
def dropBytes (l : List Char) (n : Nat) : Option (List Char) :=
  if n = 0 then some l
  else match l with
    | [] => none
    | c :: cs => if c.utf8Size ≤ n then dropBytes cs (n - c.utf8Size) else none

/-- `str::is_char_boundary`-like predicate: byte offset `n` cuts the text
between characters (and is at most its length). -/
def isCharBoundary (l : List Char) (n : Nat) : Bool := (dropBytes l n).isSome

/-- Byte slice `&text[s..e]`; `none` models the slicing panic. -/
def subBytes (l : List Char) (s e : Nat) : Option (List Char) :=
  if s ≤ e then (dropBytes l s).bind (fun suf => takeBytes suf (e - s)) else none

/-- Split on every newline character, keeping empty segments. -/
def splitNl : List Char → List (List Char)
  | [] => [[]]
  | c :: rest =>
    if c = '\n' then [] :: splitNl rest
    else match splitNl rest with
      | [] => [[c]]
      | seg :: segs => (c :: seg) :: segs

/-- Strip one trailing carriage return (`str::lines` line-ending handling). -/
def rstripCr (l : List Char) : List Char :=
  if l.getLast? = some '\r' then l.dropLast else l

/-- Rust `str::lines`: split on newlines, no empty line after a trailing
newline, each line stripped of a trailing carriage return. -/
def lines (text : List Char) : List (List Char) :=
  if text = [] then []
  else
    (if text.getLast? = some '\n' then (splitNl text).dropLast else splitNl text).map
      rstripCr

/-- `get_offset_from_position` from `src/server/src/diagnostic.rs`: the byte
lengths of the lines before the cursor line, plus one per newline, plus the
cursor character. -/
def get_offset_from_position (text : List Char) (pos : Position) : Nat :=
  (((lines text).take pos.line).map (fun line => utf8Len line + 1)).sum + pos.character

/-- `is_identifier_char` from `src/server/src/diagnostic.rs`. -/
def is_identifier_char (c : Char) : Bool :=
  (c.isAlphanum || c = '_') || c = '.'

/-- `get_identifier` from `src/server/src/diagnostic.rs`: widen from the byte
offset of the cursor over identifier characters in both directions and slice;
`none` models the slicing panics on the two offset uses. -/
def get_identifier (text : List Char) (pos : Position) : Option (List Char) :=
  let offset := get_offset_from_position text pos
  match takeBytes text offset, dropBytes text offset with
  | some pre, some suf =>
    let s := offset - (pre.reverse.takeWhile is_identifier_char).length
    let e := offset + (suf.takeWhile is_identifier_char).length
    subBytes text s e
  | _, _ => none

theorem ident_char_utf8Size (c : Char) (h : is_identifier_char c = true) :
    c.utf8Size = 1 := by
  have hv : c.val ≤ 0x7F := by
    simp [is_identifier_char, Char.isAlphanum, Char.isAlpha, Char.isUpper,
      Char.isLower, Char.isDigit] at h
    rcases h with (((⟨h1, h2⟩ | ⟨h1, h2⟩) | ⟨h1, h2⟩) | rfl) | rfl
    · exact UInt32.le_trans h2 (by decide)
    · exact UInt32.le_trans h2 (by decide)
    · exact UInt32.le_trans h2 (by decide)
    · decide
    · decide
  simp [Char.utf8Size, hv]

theorem one_le_utf8Size (c : Char) : 1 ≤ c.utf8Size := by
  simp only [Char.utf8Size]
  split
  · simp
  · split
    · simp
    · split <;> simp

theorem utf8Len_append (a b : List Char) :
    utf8Len (a ++ b) = utf8Len a + utf8Len b := by
  simp [utf8Len]

theorem utf8Len_ident (l : List Char)
    (h : ∀ c ∈ l, is_identifier_char c = true) : utf8Len l = l.length := by
  induction l with
  | nil => rfl
  | cons c cs ih =>
    simp only [utf8Len, List.map_cons, List.sum_cons, List.length_cons] at *
    rw [ident_char_utf8Size c (h c (by simp)), ih (fun d hd => h d (by simp [hd]))]
    omega

theorem takeBytes_zero (l : List Char) : takeBytes l 0 = some [] := by
  rw [takeBytes.eq_def]
  simp

theorem takeBytes_cons (c : Char) (cs : List Char) (n : Nat) (h : n ≠ 0) :
    takeBytes (c :: cs) n =
      if c.utf8Size ≤ n then (takeBytes cs (n - c.utf8Size)).map (fun t => c :: t)
      else none := by
  rw [takeBytes.eq_def]
  simp [h]

theorem dropBytes_zero (l : List Char) : dropBytes l 0 = some l := by
  rw [dropBytes.eq_def]
  simp

theorem dropBytes_nil (n : Nat) (h : n ≠ 0) : dropBytes [] n = none := by
  rw [dropBytes.eq_def]
  simp [h]

theorem dropBytes_cons (c : Char) (cs : List Char) (n : Nat) (h : n ≠ 0) :
    dropBytes (c :: cs) n =
      if c.utf8Size ≤ n then dropBytes cs (n - c.utf8Size) else none := by
  rw [dropBytes.eq_def]
  simp [h]

theorem takeBytes_append (xs ys : List Char) :
    takeBytes (xs ++ ys) (utf8Len xs) = some xs := by
  induction xs with
  | nil =>
    show takeBytes ys (utf8Len []) = some []
    rw [show utf8Len [] = 0 from rfl, takeBytes_zero]
  | cons c cs ih =>
    have h1 : utf8Len (c :: cs) = c.utf8Size + utf8Len cs := by
      simp [utf8Len]
    have hpos : utf8Len (c :: cs) ≠ 0 := by
      have := one_le_utf8Size c
      omega
    rw [List.cons_append, takeBytes_cons _ _ _ hpos, h1,
      if_pos (Nat.le_add_right _ _),
      show c.utf8Size + utf8Len cs - c.utf8Size = utf8Len cs from by omega, ih]
    rfl

theorem dropBytes_append (xs ys : List Char) :
    dropBytes (xs ++ ys) (utf8Len xs) = some ys := by
  induction xs with
  | nil =>
    show dropBytes ys (utf8Len []) = some ys
    rw [show utf8Len [] = 0 from rfl, dropBytes_zero]
  | cons c cs ih =>
    have h1 : utf8Len (c :: cs) = c.utf8Size + utf8Len cs := by
      simp [utf8Len]
    have hpos : utf8Len (c :: cs) ≠ 0 := by
      have := one_le_utf8Size c
      omega
    rw [List.cons_append, dropBytes_cons _ _ _ hpos, h1,
      if_pos (Nat.le_add_right _ _),
      show c.utf8Size + utf8Len cs - c.utf8Size = utf8Len cs from by omega, ih]

theorem dropBytes_some (l : List Char) (n : Nat) (suf : List Char)
    (h : dropBytes l n = some suf) :
    ∃ pre, takeBytes l n = some pre ∧ l = pre ++ suf ∧ utf8Len pre = n := by
  induction l generalizing n with
  | nil =>
    by_cases hn : n = 0
    · subst hn
      rw [dropBytes_zero] at h
      cases h
      exact ⟨[], takeBytes_zero _, rfl, rfl⟩
    · rw [dropBytes_nil _ hn] at h
      cases h
  | cons c cs ih =>
    by_cases hn : n = 0
    · subst hn
      rw [dropBytes_zero] at h
      cases h
      exact ⟨[], takeBytes_zero _, rfl, rfl⟩
    · rw [dropBytes_cons _ _ _ hn] at h
      by_cases hc : c.utf8Size ≤ n
      · rw [if_pos hc] at h
        obtain ⟨pre, ht, heq, hlen⟩ := ih (n - c.utf8Size) h
        refine ⟨c :: pre, ?_, ?_, ?_⟩
        · rw [takeBytes_cons _ _ _ hn, if_pos hc, ht]
          rfl
        · rw [List.cons_append, ← heq]
        · simp only [utf8Len, List.map_cons, List.sum_cons]
          simp only [utf8Len] at hlen
          omega
      · rw [if_neg hc] at h
        cases h

theorem subBytes_spec (A mid B : List Char) :
    subBytes (A ++ (mid ++ B)) (utf8Len A) (utf8Len A + utf8Len mid) = some mid := by
  rw [subBytes, if_pos (Nat.le_add_right _ _), dropBytes_append]
  show takeBytes (mid ++ B) (utf8Len A + utf8Len mid - utf8Len A) = some mid
  rw [show utf8Len A + utf8Len mid - utf8Len A = utf8Len mid from by omega,
    takeBytes_append]

/-- C10: the cursor's byte offset is the sum of line byte-length plus one over
the lines before the cursor line, plus the cursor character; whenever that
offset is at most the text length and on a character boundary, get_identifier
returns some slice of the text that spans the offset and consists only of
identifier characters (ASCII alphanumerics, underscore and dot); and for the
two-character text "ab" with cursor character 5 the offset is 5, past the end,
so the slicing panic branch is reached. -/
theorem C10_get_identifier (text : List Char) (pos : Position)
    (hoff : get_offset_from_position text pos ≤ utf8Len text)
    (hbnd : isCharBoundary text (get_offset_from_position text pos) = true) :
    (∃ s e ident,
        s ≤ get_offset_from_position text pos ∧
        get_offset_from_position text pos ≤ e ∧
        subBytes text s e = some ident ∧
        get_identifier text pos = some ident ∧
        ∀ c ∈ ident, is_identifier_char c = true) ∧
    (get_offset_from_position ("ab".toList) ⟨0, 5⟩ = 5 ∧
      utf8Len ("ab".toList) = 2 ∧
      get_identifier ("ab".toList) ⟨0, 5⟩ = none) := by
  constructor
  · simp only [isCharBoundary, Option.isSome_iff_exists] at hbnd
    obtain ⟨suf, hsuf⟩ := hbnd
    obtain ⟨pre, hpre, heq, hlen⟩ := dropBytes_some _ _ _ hsuf
    simp only [get_identifier, hpre, hsuf]
    set off := get_offset_from_position text pos with hoffdef
    set R := (pre.reverse.takeWhile is_identifier_char).reverse with hR
    set A := (pre.reverse.dropWhile is_identifier_char).reverse with hA
    set F := suf.takeWhile is_identifier_char with hF
    set B1 := suf.dropWhile is_identifier_char with hB1
    have hpre_split : pre = A ++ R := by
      have hsplit : pre.reverse.takeWhile is_identifier_char ++
          pre.reverse.dropWhile is_identifier_char = pre.reverse :=
        List.takeWhile_append_dropWhile is_identifier_char pre.reverse
      have h2 : pre =
          (pre.reverse.takeWhile is_identifier_char ++
            pre.reverse.dropWhile is_identifier_char).reverse := by
        rw [hsplit, List.reverse_reverse]
      rw [List.reverse_append] at h2
      exact h2
    have hsuf_split : suf = F ++ B1 :=
      (List.takeWhile_append_dropWhile is_identifier_char suf).symm
    have hR_ident : ∀ c ∈ R, is_identifier_char c = true := by
      intro c hc
      rw [hR, List.mem_reverse] at hc
      exact List.mem_takeWhile_imp hc
    have hF_ident : ∀ c ∈ F, is_identifier_char c = true := by
      intro c hc
      rw [hF] at hc
      exact List.mem_takeWhile_imp hc
    have hRlen : utf8Len R = R.length := utf8Len_ident R hR_ident
    have hFlen : utf8Len F = F.length := utf8Len_ident F hF_ident
    have hklen : (pre.reverse.takeWhile is_identifier_char).length = R.length := by
      rw [hR, List.length_reverse]
    have hofflen : off = utf8Len A + R.length := by
      rw [← hlen, hpre_split, utf8Len_append, hRlen]
    have htext : text = A ++ ((R ++ F) ++ B1) := by
      rw [heq, hpre_split, hsuf_split]
      simp [List.append_assoc]
    refine ⟨utf8Len A, utf8Len A + utf8Len (R ++ F), R ++ F, ?_, ?_, ?_, ?_, ?_⟩
    · omega
    · rw [utf8Len_append, hRlen, hFlen]
      omega
    · rw [htext]
      exact subBytes_spec A (R ++ F) B1
    · rw [hklen]
      have hs : off - R.length = utf8Len A := by omega
      have he : off + F.length = utf8Len A + utf8Len (R ++ F) := by
        rw [utf8Len_append, hRlen, hFlen]
        omega
      rw [hs, he, htext]
      exact subBytes_spec A (R ++ F) B1
    · intro c hc
      rcases List.mem_append.mp hc with hcl | hcr
      · exact hR_ident c hcl
      · exact hF_ident c hcr
  · refine ⟨by decide, by decide, by decide⟩

/-- The main branch of the offset theorem holds at the text "x ab.cd y" with
cursor (0,5), whose offset 5 is in bounds and on a boundary. -/
theorem C10_get_identifier_witness :
    (get_offset_from_position ("x ab.cd y".toList) ⟨0, 5⟩ ≤
        utf8Len ("x ab.cd y".toList) ∧
      isCharBoundary ("x ab.cd y".toList)
        (get_offset_from_position ("x ab.cd y".toList) ⟨0, 5⟩) = true) ∧
    ((∃ s e ident,
        s ≤ get_offset_from_position ("x ab.cd y".toList) ⟨0, 5⟩ ∧
        get_offset_from_position ("x ab.cd y".toList) ⟨0, 5⟩ ≤ e ∧
        subBytes ("x ab.cd y".toList) s e = some ident ∧
        get_identifier ("x ab.cd y".toList) ⟨0, 5⟩ = some ident ∧
        ∀ c ∈ ident, is_identifier_char c = true) ∧
      (get_offset_from_position ("ab".toList) ⟨0, 5⟩ = 5 ∧
        utf8Len ("ab".toList) = 2 ∧
        get_identifier ("ab".toList) ⟨0, 5⟩ = none)) :=
  ⟨⟨by decide, by decide⟩, C10_get_identifier ("x ab.cd y".toList) ⟨0, 5⟩
    (by decide) (by decide)⟩

/-! ## The parser

The pest grammar file `mojom.pest` is named by `src/syntax/src/syntax.rs`
(`#[grammar = "mojom.pest"]`) but is not part of the sources, so the
token-level definitions below are modelled from the specification's grammar
section (whitespace and comments between tokens; identifiers are alphanumeric
plus underscore, dotted for module names and value references; double-quoted
strings with a backslash escape; numeric literals; attribute sections in
square brackets; semicolon-terminated statements; braces around members).
The shape of every produced node follows the lowering code that is present in
`syntax.rs` (`into_module`, `into_import`, `into_const`, `into_enum`,
`into_struct`, `into_union`, `into_interface`, `into_method`, ...). -/

/-- Modelled from the spec: identifier characters are alphanumeric plus
underscore. -/
def isIdentChar (c : Char) : Bool := c.isAlphanum || c = '_'

/-- Modelled from the spec: dotted identifiers (module names and value
references) also allow a dot. -/
def isDottedChar (c : Char) : Bool := isIdentChar c || c = '.'

/-- Modelled from the spec: lex the maximal run of `p`-characters at `i`;
fails on an empty run, otherwise returns the run's range and the offset just
past it. -/
def lexWhileRange (p : Char → Bool) (text : List Char) (i : Nat) :
    Option (Range × Nat) :=
  let tok := (text.drop i).takeWhile p
  if tok.isEmpty then none else some (⟨i, i + tok.length⟩, i + tok.length)

/-- Modelled from the spec: an identifier token. -/
def lexIdentR (text : List Char) (i : Nat) : Option (Range × Nat) :=
  lexWhileRange isIdentChar text i

/-- Modelled from the spec: a dotted-identifier token. -/
def lexDottedR (text : List Char) (i : Nat) : Option (Range × Nat) :=
  lexWhileRange isDottedChar text i

/-- Modelled from the spec: the offset of the next newline (or the end of the
text), used to skip line comments. -/
def lineEnd (text : List Char) (i : Nat) : Nat :=
  i + ((text.drop i).takeWhile (fun c => c ≠ '\n')).length

/-- Modelled from the spec: the offset just past the closing of a block
comment, scanning from `i`. -/
def blockEnd (text : List Char) : Nat → Nat → Option Nat
  | 0, _ => none
  | fuel+1, i =>
    match text[i]? with
    | none => none
    | some c =>
      if c = '*' ∧ text[i+1]? = some '/' then some (i + 2)
      else blockEnd text fuel (i + 1)

/-- Modelled from the spec: skip whitespace, line comments and block comments
(an unterminated block comment is left in place, to be rejected by the next
token). -/
def skipWs (text : List Char) : Nat → Nat → Nat
  | 0, i => i
  | fuel+1, i =>
    match text[i]? with
    | none => i
    | some c =>
      if c = ' ' ∨ c = '\t' ∨ c = '\n' ∨ c = '\r' then skipWs text fuel (i + 1)
      else if c = '/' ∧ text[i+1]? = some '/' then
        skipWs text fuel (lineEnd text (i + 2))
      else if c = '/' ∧ text[i+1]? = some '*' then
        match blockEnd text (text.length + 1) (i + 2) with
        | some j => skipWs text fuel j
        | none => i
      else i

/-- Modelled from the spec: whitespace skipping with enough fuel for the whole
text. -/
def skipWsF (text : List Char) (i : Nat) : Nat := skipWs text (text.length + 1) i

/-- Modelled from the spec: consume one expected character. -/
def expectChar (text : List Char) (i : Nat) (c : Char) : Option Nat :=
  if text[i]? = some c then some (i + 1) else none

/-- Modelled from the spec: the offset just past the closing quote of a string
literal body, honouring the backslash escape. -/
def strEnd (text : List Char) : Nat → Nat → Option Nat
  | 0, _ => none
  | fuel+1, k =>
    match text[k]? with
    | none => none
    | some c =>
      if c = '"' then some (k + 1)
      else if c = '\\' then strEnd text fuel (k + 2)
      else strEnd text fuel (k + 1)

/-- Modelled from the spec: a double-quoted string literal; the range covers
the quotes, as the import-path ranges are quote-stripped only at use sites. -/
def lexString (text : List Char) (i : Nat) : Option (Range × Nat) :=
  if text[i]? = some '"' then
    (strEnd text (text.length + 1) (i + 1)).map (fun j => (⟨i, j⟩, j))
  else none

/-- Modelled from the spec: a literal value - a string literal, or an
optionally signed (plus or minus) run of dotted-identifier characters,
optionally continued by a signed exponent (a run ending in `e` or `E`
followed by `+` or `-` and digits).  This covers decimal literals, signed
decimals such as `+0X1AB4`, hex, floats with signed exponents such as
`-7e+15` and `+9e-2`, as well as `true`, `false`, `default` and dotted value
references. -/
def lexValue (text : List Char) (i : Nat) : Option (Range × Nat) :=
  match lexString text i with
  | some rj => some rj
  | none =>
    let i0 := if text[i]? = some '-' ∨ text[i]? = some '+' then i + 1 else i
    (lexDottedR text i0).bind fun rj =>
      if (text[rj.2 - 1]? = some 'e' ∨ text[rj.2 - 1]? = some 'E') ∧
          (text[rj.2]? = some '+' ∨ text[rj.2]? = some '-') then
        (lexWhileRange Char.isDigit text (rj.2 + 1)).map fun rj2 =>
          (⟨i, rj2.1.stop⟩, rj2.2)
      else some (⟨i, rj.1.stop⟩, rj.2)

/-- Modelled from the spec: an optional ordinal `@N`; the range covers the
at-sign and the digits. -/
def parseOrdinal (text : List Char) (i : Nat) : Option (Option Range × Nat) :=
  if text[i]? = some '@' then
    (lexWhileRange Char.isDigit text (i + 1)).map
      (fun rj => (some ⟨i, rj.1.stop⟩, rj.2))
  else some (none, i)

/-- Modelled from the spec: skip an attribute section (a square-bracketed
segment) if one starts at `i`. -/
def skipAttrs (text : List Char) (i : Nat) : Option Nat :=
  if text[i]? = some '[' then
    expectChar text (i + 1 + ((text.drop (i + 1)).takeWhile (fun c => c ≠ ']')).length) ']'
  else some i

mutual

/-- Modelled from the spec: consume one type expression - a (possibly
keyword) head identifier, an `associated` prefix recursing on the rest, an
angle-bracketed argument list (`array`, `map`, `handle` subtypes), a trailing
ampersand for interface requests, and a trailing question mark for
nullability - returning the offset just past it. -/
def consumeType (text : List Char) : Nat → Nat → Option Nat
  | 0, _ => none
  | fuel+1, i =>
    match lexIdentR text i with
    | none => none
    | some (r, j) =>
      if slice text r = "associated".toList then
        consumeType text fuel (skipWsF text j)
      else
        match (if text[j]? = some '<' then
                consumeTypeArgs text fuel (skipWsF text (j + 1))
              else some j) with
        | none => none
        | some j1 =>
          let j2 := if text[j1]? = some '&' then j1 + 1 else j1
          some (if text[j2]? = some '?' then j2 + 1 else j2)

/-- Modelled from the spec: the comma-separated type arguments of an
angle-bracketed list, up to and including the closing angle (an `array<T, N>`
length lexes as an identifier run). -/
def consumeTypeArgs (text : List Char) : Nat → Nat → Option Nat
  | 0, _ => none
  | fuel+1, i =>
    match consumeType text fuel i with
    | none => none
    | some j =>
      let k := skipWsF text j
      match text[k]? with
      | some ',' => consumeTypeArgs text fuel (skipWsF text (k + 1))
      | some '>' => some (k + 1)
      | _ => none

end

/-- Modelled from the spec: one enum value - optional attributes, a name,
and an optional `= value` (`into_enum_value` in `syntax.rs`). -/
def parseEnumValue (text : List Char) (i : Nat) : Option (EnumValue × Nat) :=
  (skipAttrs text i).bind fun i1 =>
  (lexIdentR text (skipWsF text i1)).bind fun rn =>
  let k := skipWsF text rn.2
  if text[k]? = some '=' then
    (lexValue text (skipWsF text (k + 1))).map fun rv => (⟨rn.1, some rv.1⟩, rv.2)
  else some (⟨rn.1, none⟩, rn.2)

/-- Modelled from the spec: the comma-separated values of an enum block, up to
and including the closing brace (`into_enum` in `syntax.rs`). -/
def parseEnumValues (text : List Char) : Nat → Nat → Option (List EnumValue × Nat)
  | 0, _ => none
  | fuel+1, i =>
    let k := skipWsF text i
    if text[k]? = some '\x7d' then some ([], k + 1)
    else
      (parseEnumValue text k).bind fun vj =>
      let k2 := skipWsF text vj.2
      match text[k2]? with
      | some ',' => (parseEnumValues text fuel (k2 + 1)).map fun vsj =>
          (vj.1 :: vsj.1, vsj.2)
      | some '\x7d' => some ([vj.1], k2 + 1)
      | _ => none

/-- Modelled from the spec: an enum statement after its keyword - a name,
then either a forward-declaration semicolon or a braced value list and a
semicolon (`into_enum` in `syntax.rs`). -/
def parseEnumAfterKw (text : List Char) (fuel : Nat) (i : Nat) :
    Option (Enum × Nat) :=
  (lexIdentR text (skipWsF text i)).bind fun rn =>
  let k := skipWsF text rn.2
  if text[k]? = some ';' then some (⟨rn.1, []⟩, k + 1)
  else
    (expectChar text k '\x7b').bind fun j1 =>
    (parseEnumValues text fuel j1).bind fun vsj =>
    (expectChar text (skipWsF text vsj.2) ';').map fun j2 => (⟨rn.1, vsj.1⟩, j2)

/-- Modelled from the spec: a const statement after its keyword - a type, a
name, an equals sign, a value and a semicolon (`into_const` in `syntax.rs`). -/
def parseConstAfterKw (text : List Char) (fuel : Nat) (i : Nat) :
    Option (Const × Nat) :=
  let k0 := skipWsF text i
  (consumeType text fuel k0).bind fun j1 =>
  (lexIdentR text (skipWsF text j1)).bind fun rn =>
  (expectChar text (skipWsF text rn.2) '=').bind fun j2 =>
  (lexValue text (skipWsF text j2)).bind fun rv =>
  (expectChar text (skipWsF text rv.2) ';').map fun j3 =>
  (⟨⟨k0, j1⟩, rn.1, rv.1⟩, j3)

/-- Modelled from the spec: a struct field - a type, a name, an optional
ordinal, an optional `= default` and a semicolon (`into_struct_field` in
`syntax.rs`; the default's range covers the value only). -/
def parseStructField (text : List Char) (fuel : Nat) (i : Nat) :
    Option (StructField × Nat) :=
  (consumeType text fuel i).bind fun j1 =>
  (lexIdentR text (skipWsF text j1)).bind fun rn =>
  (parseOrdinal text (skipWsF text rn.2)).bind fun oj =>
  let k := skipWsF text oj.2
  if text[k]? = some '=' then
    (lexValue text (skipWsF text (k + 1))).bind fun rv =>
    (expectChar text (skipWsF text rv.2) ';').map fun j2 =>
    (⟨⟨i, j1⟩, rn.1, oj.1, some rv.1⟩, j2)
  else
    (expectChar text k ';').map fun j2 => (⟨⟨i, j1⟩, rn.1, oj.1, none⟩, j2)

/-- Modelled from the spec: the members of a struct body up to and including
the closing brace - consts, enums and fields, told apart by their leading
word (`into_struct_members` in `syntax.rs`). -/
def parseStructMembers (text : List Char) : Nat → Nat → Option (List StructBody × Nat)
  | 0, _ => none
  | fuel+1, i =>
    let k := skipWsF text i
    if text[k]? = some '\x7d' then some ([], k + 1)
    else
      (skipAttrs text k).bind fun k1 =>
      let k2 := skipWsF text k1
      (lexIdentR text k2).bind fun rw =>
      if slice text rw.1 = "const".toList then
        (parseConstAfterKw text fuel rw.2).bind fun cj =>
        (parseStructMembers text fuel cj.2).map fun msj =>
        (StructBody.const cj.1 :: msj.1, msj.2)
      else if slice text rw.1 = "enum".toList then
        (parseEnumAfterKw text fuel rw.2).bind fun ej =>
        (parseStructMembers text fuel ej.2).map fun msj =>
        (StructBody.enum ej.1 :: msj.1, msj.2)
      else
        (parseStructField text fuel k2).bind fun fj =>
        (parseStructMembers text fuel fj.2).map fun msj =>
        (StructBody.field fj.1 :: msj.1, msj.2)

/-- Modelled from the spec: a struct statement after its keyword - a name,
then either a forward-declaration semicolon or a braced member list and a
semicolon (`into_struct` in `syntax.rs`). -/
def parseStructAfterKw (text : List Char) (fuel : Nat) (i : Nat) :
    Option (Struct × Nat) :=
  (lexIdentR text (skipWsF text i)).bind fun rn =>
  let k := skipWsF text rn.2
  if text[k]? = some ';' then some (⟨rn.1, []⟩, k + 1)
  else
    (expectChar text k '\x7b').bind fun j1 =>
    (parseStructMembers text fuel j1).bind fun msj =>
    (expectChar text (skipWsF text msj.2) ';').map fun j2 => (⟨rn.1, msj.1⟩, j2)

/-- Modelled from the spec: a union field - a type, a name, an optional
ordinal and a semicolon (`into_union_field` in `syntax.rs`). -/
def parseUnionField (text : List Char) (fuel : Nat) (i : Nat) :
    Option (UnionField × Nat) :=
  (consumeType text fuel i).bind fun j1 =>
  (lexIdentR text (skipWsF text j1)).bind fun rn =>
  (parseOrdinal text (skipWsF text rn.2)).bind fun oj =>
  (expectChar text (skipWsF text oj.2) ';').map fun j2 =>
  (⟨⟨i, j1⟩, rn.1, oj.1⟩, j2)

/-- Modelled from the spec: the fields of a union body up to and including the
closing brace (`into_union` in `syntax.rs`). -/
def parseUnionFields (text : List Char) : Nat → Nat → Option (List UnionField × Nat)
  | 0, _ => none
  | fuel+1, i =>
    let k := skipWsF text i
    if text[k]? = some '\x7d' then some ([], k + 1)
    else
      (skipAttrs text k).bind fun k1 =>
      (parseUnionField text fuel (skipWsF text k1)).bind fun fj =>
      (parseUnionFields text fuel fj.2).map fun fsj => (fj.1 :: fsj.1, fsj.2)

/-- Modelled from the spec: a union statement after its keyword - a name, a
braced field list and a semicolon (`into_union` in `syntax.rs`). -/
def parseUnionAfterKw (text : List Char) (fuel : Nat) (i : Nat) :
    Option (Union × Nat) :=
  (lexIdentR text (skipWsF text i)).bind fun rn =>
  (expectChar text (skipWsF text rn.2) '\x7b').bind fun j1 =>
  (parseUnionFields text fuel j1).bind fun fsj =>
  (expectChar text (skipWsF text fsj.2) ';').map fun j2 => (⟨rn.1, fsj.1⟩, j2)

/-- Modelled from the spec: one method parameter - a type, a name and an
optional ordinal (`into_parameter` in `syntax.rs`). -/
def parseParam (text : List Char) (fuel : Nat) (i : Nat) :
    Option (Parameter × Nat) :=
  (consumeType text fuel i).bind fun j1 =>
  (lexIdentR text (skipWsF text j1)).bind fun rn =>
  (parseOrdinal text (skipWsF text rn.2)).map fun oj =>
  (⟨⟨i, j1⟩, rn.1, oj.1⟩, oj.2)

/-- Modelled from the spec: a comma-separated parameter list up to and
including the closing parenthesis (`parameter_list` in `syntax.rs`). -/
def parseParams (text : List Char) : Nat → Nat → Option (List Parameter × Nat)
  | 0, _ => none
  | fuel+1, i =>
    let k := skipWsF text i
    if text[k]? = some ')' then some ([], k + 1)
    else
      (parseParam text fuel k).bind fun pj =>
      let k2 := skipWsF text pj.2
      match text[k2]? with
      | some ',' => (parseParams text fuel (k2 + 1)).map fun psj =>
          (pj.1 :: psj.1, psj.2)
      | some ')' => some ([pj.1], k2 + 1)
      | _ => none

/-- Modelled from the spec: a method after its (already lexed) name - an
optional ordinal, a parameter list, an optional `=> (...)` response and a
semicolon (`into_method` in `syntax.rs`). -/
def parseMethodAfterName (text : List Char) (fuel : Nat) (rn : Range) (i : Nat) :
    Option (Method × Nat) :=
  (parseOrdinal text (skipWsF text i)).bind fun oj =>
  (expectChar text (skipWsF text oj.2) '(').bind fun j1 =>
  (parseParams text fuel j1).bind fun psj =>
  let k := skipWsF text psj.2
  if text[k]? = some '=' ∧ text[k + 1]? = some '>' then
    (expectChar text (skipWsF text (k + 2)) '(').bind fun j2 =>
    (parseParams text fuel j2).bind fun rsj =>
    (expectChar text (skipWsF text rsj.2) ';').map fun j3 =>
    (⟨rn, oj.1, psj.1, some ⟨rsj.1⟩⟩, j3)
  else
    (expectChar text k ';').map fun j2 => (⟨rn, oj.1, psj.1, none⟩, j2)

/-- Modelled from the spec: the members of an interface body up to and
including the closing brace - consts, enums and methods, told apart by their
leading word (`into_interface` in `syntax.rs`). -/
def parseInterfaceMembers (text : List Char) :
    Nat → Nat → Option (List InterfaceMember × Nat)
  | 0, _ => none
  | fuel+1, i =>
    let k := skipWsF text i
    if text[k]? = some '\x7d' then some ([], k + 1)
    else
      (skipAttrs text k).bind fun k1 =>
      (lexIdentR text (skipWsF text k1)).bind fun rw =>
      if slice text rw.1 = "const".toList then
        (parseConstAfterKw text fuel rw.2).bind fun cj =>
        (parseInterfaceMembers text fuel cj.2).map fun msj =>
        (InterfaceMember.const cj.1 :: msj.1, msj.2)
      else if slice text rw.1 = "enum".toList then
        (parseEnumAfterKw text fuel rw.2).bind fun ej =>
        (parseInterfaceMembers text fuel ej.2).map fun msj =>
        (InterfaceMember.enum ej.1 :: msj.1, msj.2)
      else
        (parseMethodAfterName text fuel rw.1 rw.2).bind fun mj =>
        (parseInterfaceMembers text fuel mj.2).map fun msj =>
        (InterfaceMember.method mj.1 :: msj.1, msj.2)

/-- Modelled from the spec: one top-level statement - optional attributes,
then a statement told apart by its leading keyword; module names are dotted
identifiers, import paths are string literals, and each statement ends with a
semicolon (`into_mojom_file` in `syntax.rs`). -/
def parseStatement (text : List Char) (fuel : Nat) (i : Nat) :
    Option (Statement × Nat) :=
  (skipAttrs text i).bind fun i1 =>
  (lexIdentR text (skipWsF text i1)).bind fun rw =>
  let w := slice text rw.1
  if w = "module".toList then
    (lexDottedR text (skipWsF text rw.2)).bind fun rn =>
    (expectChar text (skipWsF text rn.2) ';').map fun j2 =>
    (Statement.module ⟨rn.1⟩, j2)
  else if w = "import".toList then
    (lexString text (skipWsF text rw.2)).bind fun rp =>
    (expectChar text (skipWsF text rp.2) ';').map fun j2 =>
    (Statement.imp ⟨rp.1⟩, j2)
  else if w = "const".toList then
    (parseConstAfterKw text fuel rw.2).map fun cj => (Statement.const cj.1, cj.2)
  else if w = "enum".toList then
    (parseEnumAfterKw text fuel rw.2).map fun ej => (Statement.enum ej.1, ej.2)
  else if w = "struct".toList then
    (parseStructAfterKw text fuel rw.2).map fun sj => (Statement.struct sj.1, sj.2)
  else if w = "union".toList then
    (parseUnionAfterKw text fuel rw.2).map fun uj => (Statement.union uj.1, uj.2)
  else if w = "interface".toList then
    (lexIdentR text (skipWsF text rw.2)).bind fun rn =>
    (expectChar text (skipWsF text rn.2) '\x7b').bind fun j1 =>
    (parseInterfaceMembers text fuel j1).bind fun msj =>
    (expectChar text (skipWsF text msj.2) ';').map fun j2 =>
    (Statement.interface ⟨rn.1, msj.1⟩, j2)
  else none

/-- Modelled from the spec: the statements of a file, interleaved with
whitespace and comments, until the end of the text. -/
def parseStatements (text : List Char) : Nat → Nat → Option (List Statement × Nat)
  | 0, _ => none
  | fuel+1, i =>
    let k := skipWsF text i
    match text[k]? with
    | none => some ([], k)
    | some _ =>
      (parseStatement text fuel k).bind fun sj =>
      (parseStatements text fuel sj.2).map fun ssj => (sj.1 :: ssj.1, ssj.2)

/-- Modelled from the spec: `parse` - the `parse(text) -> tree | error` entry
of the syntax layer, with the error side collapsed to `none`. -/
def parse (text : List Char) : Option MojomFile :=
  (parseStatements text (text.length + 1) 0).map fun ssj => ⟨ssj.1⟩

/-! ## Range well-formedness -/

/-- A range lies inside a text of length `len` and is nonempty. -/
abbrev RangeOk (len : Nat) (r : Range) : Prop := r.start < r.stop ∧ r.stop ≤ len

/-- The range holds exactly the maximal run of `p`-characters starting at its
start offset - its slice is the token written there. -/
abbrev IsToken (text : List Char) (p : Char → Bool) (r : Range) : Prop :=
  RangeOk text.length r ∧
    slice text r = (text.drop r.start).takeWhile p

/-- All the ranges of a list are inside the text. -/
abbrev RangesOk (text : List Char) (rs : List Range) : Prop :=
  ∀ r ∈ rs, RangeOk text.length r

/-- All the ranges of a list are identifier tokens. -/
abbrev NamesOk (text : List Char) (rs : List Range) : Prop :=
  ∀ r ∈ rs, IsToken text isIdentChar r

/-! ## Range collectors over the tree -/

/-- Ranges captured by a const. -/
def cRanges (c : Const) : List Range := [c.typ, c.name, c.value]

/-- Name ranges of a const. -/
def cNames (c : Const) : List Range := [c.name]

/-- Ranges captured by an enum value. -/
def evRanges (v : EnumValue) : List Range := v.name :: v.value.toList

/-- Name ranges of an enum value. -/
def evNames (v : EnumValue) : List Range := [v.name]

/-- Ranges captured by an enum. -/
def eRanges (e : Enum) : List Range := e.name :: e.values.flatMap evRanges

/-- Name ranges of an enum. -/
def eNames (e : Enum) : List Range := e.name :: e.values.flatMap evNames

/-- Ranges captured by a struct field. -/
def sfRanges (f : StructField) : List Range :=
  f.typ :: f.name :: (f.ordinal.toList ++ f.default.toList)

/-- Name ranges of a struct field. -/
def sfNames (f : StructField) : List Range := [f.name]

/-- Ranges captured by a struct member. -/
def sbRanges : StructBody → List Range
  | .const c => cRanges c
  | .enum e => eRanges e
  | .field f => sfRanges f

/-- Name ranges of a struct member. -/
def sbNames : StructBody → List Range
  | .const c => cNames c
  | .enum e => eNames e
  | .field f => sfNames f

/-- Ranges captured by a struct. -/
def sRanges (s : Struct) : List Range := s.name :: s.members.flatMap sbRanges

/-- Name ranges of a struct. -/
def sNames (s : Struct) : List Range := s.name :: s.members.flatMap sbNames

/-- Ranges captured by a union field. -/
def ufRanges (f : UnionField) : List Range := f.typ :: f.name :: f.ordinal.toList

/-- Name ranges of a union field. -/
def ufNames (f : UnionField) : List Range := [f.name]

/-- Ranges captured by a union. -/
def uRanges (u : Union) : List Range := u.name :: u.fields.flatMap ufRanges

/-- Name ranges of a union. -/
def uNames (u : Union) : List Range := u.name :: u.fields.flatMap ufNames

/-- Ranges captured by a parameter. -/
def pmRanges (p : Parameter) : List Range := p.typ :: p.name :: p.ordinal.toList

/-- Name ranges of a parameter. -/
def pmNames (p : Parameter) : List Range := [p.name]

/-- Ranges captured by a method. -/
def mRanges (m : Method) : List Range :=
  m.name :: (m.ordinal.toList ++ m.params.flatMap pmRanges ++
    (match m.response with
     | none => []
     | some resp => resp.params.flatMap pmRanges))

/-- Name ranges of a method. -/
def mNames (m : Method) : List Range :=
  m.name :: (m.params.flatMap pmNames ++
    (match m.response with
     | none => []
     | some resp => resp.params.flatMap pmNames))

/-- Ranges captured by an interface member. -/
def imRanges : InterfaceMember → List Range
  | .const c => cRanges c
  | .enum e => eRanges e
  | .method m => mRanges m

/-- Name ranges of an interface member. -/
def imNames : InterfaceMember → List Range
  | .const c => cNames c
  | .enum e => eNames e
  | .method m => mNames m

/-- Ranges captured by an interface. -/
def iRanges (i : Interface) : List Range := i.name :: i.members.flatMap imRanges

/-- Name ranges of an interface. -/
def iNames (i : Interface) : List Range := i.name :: i.members.flatMap imNames

/-- Ranges captured by a statement (name, type, value, path and ordinal
ranges). -/
def stRanges : Statement → List Range
  | .module m => [m.name]
  | .imp im => [im.path]
  | .interface i => iRanges i
  | .struct s => sRanges s
  | .union u => uRanges u
  | .enum e => eRanges e
  | .const c => cRanges c

/-- Plain-identifier name ranges of a statement (module names are dotted and
collected separately). -/
def stNames : Statement → List Range
  | .module _ => []
  | .imp _ => []
  | .interface i => iNames i
  | .struct s => sNames s
  | .union u => uNames u
  | .enum e => eNames e
  | .const c => cNames c

/-- The module-name range of a statement, when it is a module statement. -/
def stModNames : Statement → List Range
  | .module m => [m.name]
  | _ => []

/-- Every range captured anywhere in a parsed file. -/
def rangesOf (f : MojomFile) : List Range := f.stmts.flatMap stRanges

/-- Every plain-identifier declaration-name range of a parsed file. -/
def nameRangesOf (f : MojomFile) : List Range := f.stmts.flatMap stNames

/-- Every module-name range of a parsed file. -/
def moduleNameRangesOf (f : MojomFile) : List Range := f.stmts.flatMap stModNames

/-! ## Token lemmas -/

theorem length_takeWhile_le (p : Char → Bool) (l : List Char) :
    (l.takeWhile p).length ≤ l.length := by
  induction l with
  | nil => simp
  | cons c cs ih =>
    rw [List.takeWhile_cons]
    split
    · simpa using ih
    · simp

theorem take_takeWhile (p : Char → Bool) (l : List Char) :
    l.take ((l.takeWhile p).length) = l.takeWhile p := by
  induction l with
  | nil => rfl
  | cons c cs ih =>
    by_cases hp : p c <;> simp [List.takeWhile_cons, hp, ih]

theorem getElem?_lt_len {text : List Char} {k : Nat} {c : Char}
    (h : text[k]? = some c) : k < text.length :=
  (List.getElem?_eq_some.mp h).1

theorem lexWhileRange_ok (p : Char → Bool) (text : List Char) (i : Nat)
    (r : Range) (j : Nat) (h : lexWhileRange p text i = some (r, j)) :
    r.start = i ∧ r.stop = j ∧ IsToken text p r := by
  simp only [lexWhileRange] at h
  split at h
  · cases h
  · rename_i hne
    cases h
    have htok : (text.drop i).takeWhile p ≠ [] := by
      intro hnil
      rw [List.isEmpty_iff] at hne
      exact hne hnil
    have hpos : 0 < ((text.drop i).takeWhile p).length := List.length_pos.mpr htok
    have hle := length_takeWhile_le p (text.drop i)
    rw [List.length_drop] at hle
    have hi : i < text.length := by
      by_contra hc
      push_neg at hc
      rw [List.drop_eq_nil_of_le hc] at htok
      simp at htok
    refine ⟨rfl, rfl,
      ⟨by show i < i + ((text.drop i).takeWhile p).length; omega,
       by show i + ((text.drop i).takeWhile p).length ≤ text.length; omega⟩, ?_⟩
    simp only [slice]
    rw [show i + ((text.drop i).takeWhile p).length - i =
      ((text.drop i).takeWhile p).length from by omega]
    exact take_takeWhile p (text.drop i)

theorem strEnd_ok (text : List Char) (fuel k j : Nat)
    (h : strEnd text fuel k = some j) : k < j ∧ j ≤ text.length := by
  induction fuel generalizing k with
  | zero => simp [strEnd] at h
  | succ fuel ih =>
    rw [strEnd] at h
    split at h
    · cases h
    · rename_i c hc
      have hk := getElem?_lt_len hc
      by_cases h1 : c = '"'
      · rw [if_pos h1] at h
        cases h
        omega
      · rw [if_neg h1] at h
        by_cases h2 : c = '\\'
        · rw [if_pos h2] at h
          have := ih (k + 2) h
          omega
        · rw [if_neg h2] at h
          have := ih (k + 1) h
          omega

theorem lexIdentR_ok (text : List Char) (i : Nat) (r : Range) (j : Nat)
    (h : lexIdentR text i = some (r, j)) :
    r.start = i ∧ r.stop = j ∧ IsToken text isIdentChar r :=
  lexWhileRange_ok isIdentChar text i r j h

theorem lexDottedR_ok (text : List Char) (i : Nat) (r : Range) (j : Nat)
    (h : lexDottedR text i = some (r, j)) :
    r.start = i ∧ r.stop = j ∧ IsToken text isDottedChar r :=
  lexWhileRange_ok isDottedChar text i r j h

theorem lexString_ok (text : List Char) (i : Nat) (r : Range) (j : Nat)
    (h : lexString text i = some (r, j)) : RangeOk text.length r := by
  simp only [lexString] at h
  split at h
  · simp only [Option.map_eq_some'] at h
    obtain ⟨j1, hse, hpair⟩ := h
    have hb := strEnd_ok text (text.length + 1) (i + 1) j1 hse
    obtain ⟨hr, hj⟩ : ({ start := i, stop := j1 } : Range) = r ∧ j1 = j := by
      simpa [Prod.ext_iff] using hpair
    subst hr
    exact ⟨by show i < j1; omega, by show j1 ≤ text.length; omega⟩
  · cases h

theorem lexValue_ok (text : List Char) (i : Nat) (r : Range) (j : Nat)
    (h : lexValue text i = some (r, j)) : RangeOk text.length r := by
  simp only [lexValue] at h
  cases hs : lexString text i with
  | some rj =>
    rw [hs] at h
    cases h
    exact lexString_ok text i r j hs
  | none =>
    rw [hs] at h
    split at h
    · rename_i rj heq
      cases heq
    rename_i heq
    simp only [Option.bind_eq_some] at h
    obtain ⟨rj, hd, h⟩ := h
    obtain ⟨hstart, hstop, hok, _⟩ := lexWhileRange_ok isDottedChar text _ rj.1 rj.2 hd
    have hge : i ≤ rj.1.start := by
      rw [hstart]
      split <;> omega
    split at h
    · simp only [Option.map_eq_some'] at h
      obtain ⟨rj2, hd2, hpair⟩ := h
      obtain ⟨hstart2, hstop2, hok2, _⟩ :=
        lexWhileRange_ok Char.isDigit text (rj.2 + 1) rj2.1 rj2.2 hd2
      obtain ⟨hr, hj⟩ : ({ start := i, stop := rj2.1.stop } : Range) = r ∧ rj2.2 = j := by
        simpa [Prod.ext_iff] using hpair
      subst hr
      refine ⟨by show i < rj2.1.stop; omega,
        by show rj2.1.stop ≤ text.length; exact hok2.2⟩
    · obtain ⟨hr, hj⟩ : ({ start := i, stop := rj.1.stop } : Range) = r ∧ rj.2 = j := by
        simpa [Prod.ext_iff] using h
      subst hr
      refine ⟨by show i < rj.1.stop; omega,
        by show rj.1.stop ≤ text.length; exact hok.2⟩

theorem parseOrdinal_ok (text : List Char) (i : Nat) (o : Option Range) (j : Nat)
    (h : parseOrdinal text i = some (o, j)) :
    ∀ r ∈ o.toList, RangeOk text.length r := by
  simp only [parseOrdinal] at h
  split at h
  · simp only [Option.map_eq_some'] at h
    obtain ⟨rj, hd, hpair⟩ := h
    obtain ⟨hstart, hstop, hok, _⟩ :=
      lexWhileRange_ok Char.isDigit text (i + 1) rj.1 rj.2 hd
    obtain ⟨ho, hj⟩ : some ({ start := i, stop := rj.1.stop } : Range) = o ∧ rj.2 = j := by
      simpa [Prod.ext_iff] using hpair
    subst ho
    intro r hr
    simp only [Option.toList_some, List.mem_singleton] at hr
    subst hr
    exact ⟨by show i < rj.1.stop; omega, by show rj.1.stop ≤ text.length; exact hok.2⟩
  · cases h
    simp

theorem blockEnd_ge (text : List Char) (fuel k j : Nat)
    (h : blockEnd text fuel k = some j) : k < j ∧ j ≤ text.length := by
  induction fuel generalizing k with
  | zero => simp [blockEnd] at h
  | succ fuel ih =>
    rw [blockEnd] at h
    split at h
    · cases h
    · rename_i c hc
      have hk := getElem?_lt_len hc
      split at h
      · rename_i hstar
        cases h
        have := getElem?_lt_len hstar.2
        omega
      · have := ih (k + 1) h
        omega

theorem skipWs_ge (text : List Char) (fuel i : Nat) : i ≤ skipWs text fuel i := by
  induction fuel generalizing i with
  | zero => simp [skipWs]
  | succ fuel ih =>
    rw [skipWs]
    split
    · exact le_refl i
    · split
      · have := ih (i + 1)
        omega
      · split
        · have h1 : i + 2 ≤ lineEnd text (i + 2) := Nat.le_add_right _ _
          have h2 := ih (lineEnd text (i + 2))
          omega
        · split
          · split
            · rename_i j hb
              have h1 := blockEnd_ge text (text.length + 1) (i + 2) j hb
              have h2 := ih j
              omega
            · exact le_refl i
          · exact le_refl i

theorem consumeType_bound (fuel : Nat) : ∀ (text : List Char) (i j : Nat),
    (consumeType text fuel i = some j → i < j ∧ j ≤ text.length) ∧
    (consumeTypeArgs text fuel i = some j → i < j ∧ j ≤ text.length) := by
  induction fuel with
  | zero =>
    intro text i j
    constructor
    · intro h
      simp [consumeType] at h
    · intro h
      simp [consumeTypeArgs] at h
  | succ fuel ih =>
    intro text i j
    constructor
    · intro h
      simp only [consumeType] at h
      split at h
      · cases h
      · rename_i r0 j0 hlex
        obtain ⟨hstart, hstop, hok, _⟩ := lexIdentR_ok text i r0 j0 hlex
        split at h
        · have hge := skipWs_ge text (text.length + 1) j0
          have := (ih text (skipWsF text j0) j).1 h
          simp only [skipWsF] at this ⊢
          omega
        · split at h
          · cases h
          · rename_i j1 heq1
            have hj1 : j0 ≤ j1 ∧ j1 ≤ text.length := by
              split at heq1
              · rename_i hlt
                have hge := skipWs_ge text (text.length + 1) (j0 + 1)
                have := (ih text (skipWsF text (j0 + 1)) j1).2 heq1
                simp only [skipWsF] at this
                omega
              · cases heq1
                omega
            cases h
            by_cases ha : text[j1]? = some '&'
            · rw [if_pos ha]
              have hlt1 := getElem?_lt_len ha
              by_cases hq : text[j1 + 1]? = some '?'
              · rw [if_pos hq]
                have := getElem?_lt_len hq
                omega
              · rw [if_neg hq]
                omega
            · rw [if_neg ha]
              by_cases hq : text[j1]? = some '?'
              · rw [if_pos hq]
                have := getElem?_lt_len hq
                omega
              · rw [if_neg hq]
                omega
    · intro h
      simp only [consumeTypeArgs] at h
      split at h
      · cases h
      · rename_i j0 hty
        have hb := (ih text i j0).1 hty
        have hge := skipWs_ge text (text.length + 1) j0
        split at h
        · rename_i hcomma
          have := (ih text (skipWsF text (skipWsF text j0 + 1)) j).2 h
          have hge2 := skipWs_ge text (text.length + 1) (skipWsF text j0 + 1)
          simp only [skipWsF] at this hge hge2
          omega
        · rename_i hgt
          cases h
          have := getElem?_lt_len hgt
          simp only [skipWsF] at this hge ⊢
          omega
        · cases h

theorem consumeType_range (text : List Char) (fuel i j : Nat)
    (h : consumeType text fuel i = some j) :
    RangeOk text.length ⟨i, j⟩ :=
  (consumeType_bound fuel text i j).1 h

theorem parseEnumValue_ok (text : List Char) (i : Nat) (v : EnumValue) (j : Nat)
    (h : parseEnumValue text i = some (v, j)) :
    RangesOk text (evRanges v) ∧ NamesOk text (evNames v) := by
  simp only [parseEnumValue, Option.bind_eq_some] at h
  obtain ⟨i1, _, h⟩ := h
  obtain ⟨rn, hn, h⟩ := h
  obtain ⟨hstart, hstop, htok⟩ := lexIdentR_ok text _ rn.1 rn.2 hn
  split at h
  · simp only [Option.map_eq_some'] at h
    obtain ⟨rv, hv, hpair⟩ := h
    have hvok := lexValue_ok text _ rv.1 rv.2 hv
    obtain ⟨hveq, hjeq⟩ : (⟨rn.1, some rv.1⟩ : EnumValue) = v ∧ rv.2 = j := by
      simpa [Prod.ext_iff] using hpair
    subst hveq
    constructor
    · intro r hr
      simp only [evRanges, Option.toList_some, List.mem_cons, List.mem_singleton,
        List.not_mem_nil, or_false] at hr
      rcases hr with rfl | rfl
      · exact htok.1
      · exact hvok
    · intro r hr
      simp only [evNames, List.mem_singleton] at hr
      subst hr
      exact htok
  · obtain ⟨hveq, hjeq⟩ : (⟨rn.1, none⟩ : EnumValue) = v ∧ rn.2 = j := by
      simpa [Prod.ext_iff] using h
    subst hveq
    constructor
    · intro r hr
      simp only [evRanges, Option.toList_none, List.append_nil, List.mem_cons,
        List.not_mem_nil, or_false] at hr
      subst hr
      exact htok.1
    · intro r hr
      simp only [evNames, List.mem_singleton] at hr
      subst hr
      exact htok

theorem parseEnumValues_ok (text : List Char) (fuel : Nat) :
    ∀ (i : Nat) (vs : List EnumValue) (j : Nat),
    parseEnumValues text fuel i = some (vs, j) →
    RangesOk text (vs.flatMap evRanges) ∧ NamesOk text (vs.flatMap evNames) := by
  induction fuel with
  | zero =>
    intro i vs j h
    simp [parseEnumValues] at h
  | succ fuel ih =>
    intro i vs j h
    simp only [parseEnumValues] at h
    split at h
    · obtain ⟨hvs, hj⟩ : ([] : List EnumValue) = vs ∧ skipWsF text i + 1 = j := by
        simpa [Prod.ext_iff] using h
      subst hvs
      constructor <;> intro r hr <;> simp at hr
    · simp only [Option.bind_eq_some] at h
      obtain ⟨vj, hv, h⟩ := h
      have hvok := parseEnumValue_ok text _ vj.1 vj.2 hv
      split at h
      · simp only [Option.map_eq_some'] at h
        obtain ⟨vsj, hvs, hpair⟩ := h
        have hih := ih _ vsj.1 vsj.2 hvs
        obtain ⟨hveq, hjeq⟩ : vj.1 :: vsj.1 = vs ∧ vsj.2 = j := by
          simpa [Prod.ext_iff] using hpair
        subst hveq
        constructor
        · intro r hr
          simp only [List.flatMap_cons, List.mem_append] at hr
          rcases hr with hr | hr
          · exact hvok.1 r hr
          · exact hih.1 r hr
        · intro r hr
          simp only [List.flatMap_cons, List.mem_append] at hr
          rcases hr with hr | hr
          · exact hvok.2 r hr
          · exact hih.2 r hr
      · obtain ⟨hveq, hjeq⟩ : [vj.1] = vs ∧ skipWsF text vj.2 + 1 = j := by
          simpa [Prod.ext_iff] using h
        subst hveq
        constructor
        · intro r hr
          simp only [List.flatMap_cons, List.flatMap_nil, List.append_nil] at hr
          exact hvok.1 r hr
        · intro r hr
          simp only [List.flatMap_cons, List.flatMap_nil, List.append_nil] at hr
          exact hvok.2 r hr
      · cases h

theorem parseEnumAfterKw_ok (text : List Char) (fuel i : Nat) (e : Enum) (j : Nat)
    (h : parseEnumAfterKw text fuel i = some (e, j)) :
    RangesOk text (eRanges e) ∧ NamesOk text (eNames e) := by
  simp only [parseEnumAfterKw, Option.bind_eq_some] at h
  obtain ⟨rn, hn, h⟩ := h
  obtain ⟨hstart, hstop, htok⟩ := lexIdentR_ok text _ rn.1 rn.2 hn
  split at h
  · obtain ⟨heq, hjeq⟩ : (⟨rn.1, []⟩ : Enum) = e ∧ skipWsF text rn.2 + 1 = j := by
      simpa [Prod.ext_iff] using h
    subst heq
    constructor
    · intro r hr
      simp only [eRanges, List.flatMap_nil, List.mem_cons, List.not_mem_nil,
        or_false] at hr
      subst hr
      exact htok.1
    · intro r hr
      simp only [eNames, List.flatMap_nil, List.mem_cons, List.not_mem_nil,
        or_false] at hr
      subst hr
      exact htok
  · simp only [Option.bind_eq_some, Option.map_eq_some'] at h
    obtain ⟨j1, _, vsj, hvs, j2, _, hpair⟩ := h
    have hvsok := parseEnumValues_ok text fuel _ vsj.1 vsj.2 hvs
    obtain ⟨heq, hjeq⟩ : (⟨rn.1, vsj.1⟩ : Enum) = e ∧ j2 = j := by
      simpa [Prod.ext_iff] using hpair
    subst heq
    constructor
    · intro r hr
      simp only [eRanges, List.mem_cons] at hr
      rcases hr with rfl | hr
      · exact htok.1
      · exact hvsok.1 r hr
    · intro r hr
      simp only [eNames, List.mem_cons] at hr
      rcases hr with rfl | hr
      · exact htok
      · exact hvsok.2 r hr

theorem parseConstAfterKw_ok (text : List Char) (fuel i : Nat) (c : Const) (j : Nat)
    (h : parseConstAfterKw text fuel i = some (c, j)) :
    RangesOk text (cRanges c) ∧ NamesOk text (cNames c) := by
  simp only [parseConstAfterKw, Option.bind_eq_some, Option.map_eq_some'] at h
  obtain ⟨j1, hty, rn, hn, j2, _, rv, hv, j3, _, hpair⟩ := h
  obtain ⟨hstart, hstop, htok⟩ := lexIdentR_ok text _ rn.1 rn.2 hn
  have htyok := consumeType_range text fuel _ j1 hty
  have hvok := lexValue_ok text _ rv.1 rv.2 hv
  obtain ⟨heq, hjeq⟩ :
      (⟨⟨skipWsF text i, j1⟩, rn.1, rv.1⟩ : Const) = c ∧ j3 = j := by
    simpa [Prod.ext_iff] using hpair
  subst heq
  constructor
  · intro r hr
    simp only [cRanges, List.mem_cons, List.not_mem_nil, or_false] at hr
    rcases hr with rfl | rfl | rfl
    · exact htyok
    · exact htok.1
    · exact hvok
  · intro r hr
    simp only [cNames, List.mem_singleton] at hr
    subst hr
    exact htok

theorem parseStructField_ok (text : List Char) (fuel i : Nat) (f : StructField)
    (j : Nat) (h : parseStructField text fuel i = some (f, j)) :
    RangesOk text (sfRanges f) ∧ NamesOk text (sfNames f) := by
  simp only [parseStructField, Option.bind_eq_some] at h
  obtain ⟨j1, hty, rn, hn, oj, ho, h⟩ := h
  obtain ⟨hstart, hstop, htok⟩ := lexIdentR_ok text _ rn.1 rn.2 hn
  have htyok := consumeType_range text fuel _ j1 hty
  have hook := parseOrdinal_ok text _ oj.1 oj.2 ho
  split at h
  · simp only [Option.bind_eq_some, Option.map_eq_some'] at h
    obtain ⟨rv, hv, j2, _, hpair⟩ := h
    have hvok := lexValue_ok text _ rv.1 rv.2 hv
    obtain ⟨heq, hjeq⟩ :
        (⟨⟨i, j1⟩, rn.1, oj.1, some rv.1⟩ : StructField) = f ∧ j2 = j := by
      simpa [Prod.ext_iff] using hpair
    subst heq
    constructor
    · intro r hr
      simp only [sfRanges, Option.toList_some, List.mem_cons, List.mem_append,
        List.mem_singleton, List.not_mem_nil, or_false] at hr
      rcases hr with rfl | rfl | hr | rfl
      · exact htyok
      · exact htok.1
      · exact hook r hr
      · exact hvok
    · intro r hr
      simp only [sfNames, List.mem_singleton] at hr
      subst hr
      exact htok
  · simp only [Option.map_eq_some'] at h
    obtain ⟨j2, _, hpair⟩ := h
    obtain ⟨heq, hjeq⟩ :
        (⟨⟨i, j1⟩, rn.1, oj.1, none⟩ : StructField) = f ∧ j2 = j := by
      simpa [Prod.ext_iff] using hpair
    subst heq
    constructor
    · intro r hr
      simp only [sfRanges, Option.toList_none, List.append_nil, List.mem_cons] at hr
      rcases hr with rfl | rfl | hr
      · exact htyok
      · exact htok.1
      · exact hook r hr
    · intro r hr
      simp only [sfNames, List.mem_singleton] at hr
      subst hr
      exact htok

theorem parseStructMembers_ok (text : List Char) (fuel : Nat) :
    ∀ (i : Nat) (ms : List StructBody) (j : Nat),
    parseStructMembers text fuel i = some (ms, j) →
    RangesOk text (ms.flatMap sbRanges) ∧ NamesOk text (ms.flatMap sbNames) := by
  induction fuel with
  | zero =>
    intro i ms j h
    simp [parseStructMembers] at h
  | succ fuel ih =>
    intro i ms j h
    simp only [parseStructMembers] at h
    split at h
    · obtain ⟨hms, hj⟩ : ([] : List StructBody) = ms ∧ skipWsF text i + 1 = j := by
        simpa [Prod.ext_iff] using h
      subst hms
      constructor <;> intro r hr <;> simp at hr
    · simp only [Option.bind_eq_some] at h
      obtain ⟨k1, _, rw, hw, h⟩ := h
      split at h
      · simp only [Option.bind_eq_some, Option.map_eq_some'] at h
        obtain ⟨cj, hc, msj, hms, hpair⟩ := h
        have hcok := parseConstAfterKw_ok text fuel _ cj.1 cj.2 hc
        have hih := ih _ msj.1 msj.2 hms
        obtain ⟨heq, hjeq⟩ : StructBody.const cj.1 :: msj.1 = ms ∧ msj.2 = j := by
          simpa [Prod.ext_iff] using hpair
        subst heq
        constructor
        · intro r hr
          simp only [List.flatMap_cons, List.mem_append, sbRanges] at hr
          rcases hr with hr | hr
          · exact hcok.1 r hr
          · exact hih.1 r hr
        · intro r hr
          simp only [List.flatMap_cons, List.mem_append, sbNames] at hr
          rcases hr with hr | hr
          · exact hcok.2 r hr
          · exact hih.2 r hr
      · split at h
        · simp only [Option.bind_eq_some, Option.map_eq_some'] at h
          obtain ⟨ej, he, msj, hms, hpair⟩ := h
          have heok := parseEnumAfterKw_ok text fuel _ ej.1 ej.2 he
          have hih := ih _ msj.1 msj.2 hms
          obtain ⟨heq, hjeq⟩ : StructBody.enum ej.1 :: msj.1 = ms ∧ msj.2 = j := by
            simpa [Prod.ext_iff] using hpair
          subst heq
          constructor
          · intro r hr
            simp only [List.flatMap_cons, List.mem_append, sbRanges] at hr
            rcases hr with hr | hr
            · exact heok.1 r hr
            · exact hih.1 r hr
          · intro r hr
            simp only [List.flatMap_cons, List.mem_append, sbNames] at hr
            rcases hr with hr | hr
            · exact heok.2 r hr
            · exact hih.2 r hr
        · simp only [Option.bind_eq_some, Option.map_eq_some'] at h
          obtain ⟨fj, hf, msj, hms, hpair⟩ := h
          have hfok := parseStructField_ok text fuel _ fj.1 fj.2 hf
          have hih := ih _ msj.1 msj.2 hms
          obtain ⟨heq, hjeq⟩ : StructBody.field fj.1 :: msj.1 = ms ∧ msj.2 = j := by
            simpa [Prod.ext_iff] using hpair
          subst heq
          constructor
          · intro r hr
            simp only [List.flatMap_cons, List.mem_append, sbRanges] at hr
            rcases hr with hr | hr
            · exact hfok.1 r hr
            · exact hih.1 r hr
          · intro r hr
            simp only [List.flatMap_cons, List.mem_append, sbNames] at hr
            rcases hr with hr | hr
            · exact hfok.2 r hr
            · exact hih.2 r hr
theorem parseStructAfterKw_ok (text : List Char) (fuel i : Nat) (s : Struct)
    (j : Nat) (h : parseStructAfterKw text fuel i = some (s, j)) :
    RangesOk text (sRanges s) ∧ NamesOk text (sNames s) := by
  simp only [parseStructAfterKw, Option.bind_eq_some] at h
  obtain ⟨rn, hn, h⟩ := h
  obtain ⟨hstart, hstop, htok⟩ := lexIdentR_ok text _ rn.1 rn.2 hn
  split at h
  · obtain ⟨heq, hjeq⟩ : (⟨rn.1, []⟩ : Struct) = s ∧ skipWsF text rn.2 + 1 = j := by
      simpa [Prod.ext_iff] using h
    subst heq
    constructor
    · intro r hr
      simp only [sRanges, List.flatMap_nil, List.mem_cons, List.not_mem_nil,
        or_false] at hr
      subst hr
      exact htok.1
    · intro r hr
      simp only [sNames, List.flatMap_nil, List.mem_cons, List.not_mem_nil,
        or_false] at hr
      subst hr
      exact htok
  · simp only [Option.bind_eq_some, Option.map_eq_some'] at h
    obtain ⟨j1, _, msj, hms, j2, _, hpair⟩ := h
    have hmok := parseStructMembers_ok text fuel _ msj.1 msj.2 hms
    obtain ⟨heq, hjeq⟩ : (⟨rn.1, msj.1⟩ : Struct) = s ∧ j2 = j := by
      simpa [Prod.ext_iff] using hpair
    subst heq
    constructor
    · intro r hr
      simp only [sRanges, List.mem_cons] at hr
      rcases hr with rfl | hr
      · exact htok.1
      · exact hmok.1 r hr
    · intro r hr
      simp only [sNames, List.mem_cons] at hr
      rcases hr with rfl | hr
      · exact htok
      · exact hmok.2 r hr

theorem parseUnionField_ok (text : List Char) (fuel i : Nat) (f : UnionField)
    (j : Nat) (h : parseUnionField text fuel i = some (f, j)) :
    RangesOk text (ufRanges f) ∧ NamesOk text (ufNames f) := by
  simp only [parseUnionField, Option.bind_eq_some, Option.map_eq_some'] at h
  obtain ⟨j1, hty, rn, hn, oj, ho, j2, _, hpair⟩ := h
  obtain ⟨hstart, hstop, htok⟩ := lexIdentR_ok text _ rn.1 rn.2 hn
  have htyok := consumeType_range text fuel _ j1 hty
  have hook := parseOrdinal_ok text _ oj.1 oj.2 ho
  obtain ⟨heq, hjeq⟩ : (⟨⟨i, j1⟩, rn.1, oj.1⟩ : UnionField) = f ∧ j2 = j := by
    simpa [Prod.ext_iff] using hpair
  subst heq
  constructor
  · intro r hr
    simp only [ufRanges, List.mem_cons] at hr
    rcases hr with rfl | rfl | hr
    · exact htyok
    · exact htok.1
    · exact hook r hr
  · intro r hr
    simp only [ufNames, List.mem_singleton] at hr
    subst hr
    exact htok

theorem parseUnionFields_ok (text : List Char) (fuel : Nat) :
    ∀ (i : Nat) (fs : List UnionField) (j : Nat),
    parseUnionFields text fuel i = some (fs, j) →
    RangesOk text (fs.flatMap ufRanges) ∧ NamesOk text (fs.flatMap ufNames) := by
  induction fuel with
  | zero =>
    intro i fs j h
    simp [parseUnionFields] at h
  | succ fuel ih =>
    intro i fs j h
    simp only [parseUnionFields] at h
    split at h
    · obtain ⟨hfs, hj⟩ : ([] : List UnionField) = fs ∧ skipWsF text i + 1 = j := by
        simpa [Prod.ext_iff] using h
      subst hfs
      constructor <;> intro r hr <;> simp at hr
    · simp only [Option.bind_eq_some, Option.map_eq_some'] at h
      obtain ⟨k1, _, fj, hf, fsj, hfs, hpair⟩ := h
      have hfok := parseUnionField_ok text fuel _ fj.1 fj.2 hf
      have hih := ih _ fsj.1 fsj.2 hfs
      obtain ⟨heq, hjeq⟩ : fj.1 :: fsj.1 = fs ∧ fsj.2 = j := by
        simpa [Prod.ext_iff] using hpair
      subst heq
      constructor
      · intro r hr
        simp only [List.flatMap_cons, List.mem_append] at hr
        rcases hr with hr | hr
        · exact hfok.1 r hr
        · exact hih.1 r hr
      · intro r hr
        simp only [List.flatMap_cons, List.mem_append] at hr
        rcases hr with hr | hr
        · exact hfok.2 r hr
        · exact hih.2 r hr

theorem parseUnionAfterKw_ok (text : List Char) (fuel i : Nat) (u : Union)
    (j : Nat) (h : parseUnionAfterKw text fuel i = some (u, j)) :
    RangesOk text (uRanges u) ∧ NamesOk text (uNames u) := by
  simp only [parseUnionAfterKw, Option.bind_eq_some, Option.map_eq_some'] at h
  obtain ⟨rn, hn, j1, _, fsj, hfs, j2, _, hpair⟩ := h
  obtain ⟨hstart, hstop, htok⟩ := lexIdentR_ok text _ rn.1 rn.2 hn
  have hfok := parseUnionFields_ok text fuel _ fsj.1 fsj.2 hfs
  obtain ⟨heq, hjeq⟩ : (⟨rn.1, fsj.1⟩ : Union) = u ∧ j2 = j := by
    simpa [Prod.ext_iff] using hpair
  subst heq
  constructor
  · intro r hr
    simp only [uRanges, List.mem_cons] at hr
    rcases hr with rfl | hr
    · exact htok.1
    · exact hfok.1 r hr
  · intro r hr
    simp only [uNames, List.mem_cons] at hr
    rcases hr with rfl | hr
    · exact htok
    · exact hfok.2 r hr

theorem parseParam_ok (text : List Char) (fuel i : Nat) (p : Parameter)
    (j : Nat) (h : parseParam text fuel i = some (p, j)) :
    RangesOk text (pmRanges p) ∧ NamesOk text (pmNames p) := by
  simp only [parseParam, Option.bind_eq_some, Option.map_eq_some'] at h
  obtain ⟨j1, hty, rn, hn, oj, ho, hpair⟩ := h
  obtain ⟨hstart, hstop, htok⟩ := lexIdentR_ok text _ rn.1 rn.2 hn
  have htyok := consumeType_range text fuel _ j1 hty
  have hook := parseOrdinal_ok text _ oj.1 oj.2 ho
  obtain ⟨heq, hjeq⟩ : (⟨⟨i, j1⟩, rn.1, oj.1⟩ : Parameter) = p ∧ oj.2 = j := by
    simpa [Prod.ext_iff] using hpair
  subst heq
  constructor
  · intro r hr
    simp only [pmRanges, List.mem_cons] at hr
    rcases hr with rfl | rfl | hr
    · exact htyok
    · exact htok.1
    · exact hook r hr
  · intro r hr
    simp only [pmNames, List.mem_singleton] at hr
    subst hr
    exact htok

theorem parseParams_ok (text : List Char) (fuel : Nat) :
    ∀ (i : Nat) (ps : List Parameter) (j : Nat),
    parseParams text fuel i = some (ps, j) →
    RangesOk text (ps.flatMap pmRanges) ∧ NamesOk text (ps.flatMap pmNames) := by
  induction fuel with
  | zero =>
    intro i ps j h
    simp [parseParams] at h
  | succ fuel ih =>
    intro i ps j h
    simp only [parseParams] at h
    split at h
    · obtain ⟨hps, hj⟩ : ([] : List Parameter) = ps ∧ skipWsF text i + 1 = j := by
        simpa [Prod.ext_iff] using h
      subst hps
      constructor <;> intro r hr <;> simp at hr
    · simp only [Option.bind_eq_some] at h
      obtain ⟨pj, hp, h⟩ := h
      have hpok := parseParam_ok text fuel _ pj.1 pj.2 hp
      split at h
      · simp only [Option.map_eq_some'] at h
        obtain ⟨psj, hps, hpair⟩ := h
        have hih := ih _ psj.1 psj.2 hps
        obtain ⟨heq, hjeq⟩ : pj.1 :: psj.1 = ps ∧ psj.2 = j := by
          simpa [Prod.ext_iff] using hpair
        subst heq
        constructor
        · intro r hr
          simp only [List.flatMap_cons, List.mem_append] at hr
          rcases hr with hr | hr
          · exact hpok.1 r hr
          · exact hih.1 r hr
        · intro r hr
          simp only [List.flatMap_cons, List.mem_append] at hr
          rcases hr with hr | hr
          · exact hpok.2 r hr
          · exact hih.2 r hr
      · obtain ⟨heq, hjeq⟩ : [pj.1] = ps ∧ skipWsF text pj.2 + 1 = j := by
          simpa [Prod.ext_iff] using h
        subst heq
        constructor
        · intro r hr
          simp only [List.flatMap_cons, List.flatMap_nil, List.append_nil] at hr
          exact hpok.1 r hr
        · intro r hr
          simp only [List.flatMap_cons, List.flatMap_nil, List.append_nil] at hr
          exact hpok.2 r hr
      · cases h

theorem parseMethodAfterName_ok (text : List Char) (fuel : Nat) (rn : Range)
    (i : Nat) (m : Method) (j : Nat)
    (hname : IsToken text isIdentChar rn)
    (h : parseMethodAfterName text fuel rn i = some (m, j)) :
    RangesOk text (mRanges m) ∧ NamesOk text (mNames m) := by
  simp only [parseMethodAfterName, Option.bind_eq_some] at h
  obtain ⟨oj, ho, j1, _, psj, hps, h⟩ := h
  have hook := parseOrdinal_ok text _ oj.1 oj.2 ho
  have hpok := parseParams_ok text fuel _ psj.1 psj.2 hps
  split at h
  · simp only [Option.bind_eq_some, Option.map_eq_some'] at h
    obtain ⟨j2, _, rsj, hrs, j3, _, hpair⟩ := h
    have hrok := parseParams_ok text fuel _ rsj.1 rsj.2 hrs
    obtain ⟨heq, hjeq⟩ :
        (⟨rn, oj.1, psj.1, some ⟨rsj.1⟩⟩ : Method) = m ∧ j3 = j := by
      simpa [Prod.ext_iff] using hpair
    subst heq
    constructor
    · intro r hr
      simp only [mRanges, List.mem_cons, List.mem_append] at hr
      rcases hr with rfl | (hr | hr) | hr
      · exact hname.1
      · exact hook r hr
      · exact hpok.1 r hr
      · exact hrok.1 r hr
    · intro r hr
      simp only [mNames, List.mem_cons, List.mem_append] at hr
      rcases hr with rfl | hr | hr
      · exact hname
      · exact hpok.2 r hr
      · exact hrok.2 r hr
  · simp only [Option.map_eq_some'] at h
    obtain ⟨j2, _, hpair⟩ := h
    obtain ⟨heq, hjeq⟩ : (⟨rn, oj.1, psj.1, none⟩ : Method) = m ∧ j2 = j := by
      simpa [Prod.ext_iff] using hpair
    subst heq
    constructor
    · intro r hr
      simp only [mRanges, List.mem_cons, List.mem_append, List.append_nil] at hr
      rcases hr with rfl | hr | hr
      · exact hname.1
      · exact hook r hr
      · exact hpok.1 r hr
    · intro r hr
      simp only [mNames, List.mem_cons, List.mem_append, List.append_nil] at hr
      rcases hr with rfl | hr
      · exact hname
      · exact hpok.2 r hr

theorem parseInterfaceMembers_ok (text : List Char) (fuel : Nat) :
    ∀ (i : Nat) (ms : List InterfaceMember) (j : Nat),
    parseInterfaceMembers text fuel i = some (ms, j) →
    RangesOk text (ms.flatMap imRanges) ∧ NamesOk text (ms.flatMap imNames) := by
  induction fuel with
  | zero =>
    intro i ms j h
    simp [parseInterfaceMembers] at h
  | succ fuel ih =>
    intro i ms j h
    simp only [parseInterfaceMembers] at h
    split at h
    · obtain ⟨hms, hj⟩ : ([] : List InterfaceMember) = ms ∧ skipWsF text i + 1 = j := by
        simpa [Prod.ext_iff] using h
      subst hms
      constructor <;> intro r hr <;> simp at hr
    · simp only [Option.bind_eq_some] at h
      obtain ⟨k1, _, rw, hw, h⟩ := h
      split at h
      · simp only [Option.bind_eq_some, Option.map_eq_some'] at h
        obtain ⟨cj, hc, msj, hms, hpair⟩ := h
        have hcok := parseConstAfterKw_ok text fuel _ cj.1 cj.2 hc
        have hih := ih _ msj.1 msj.2 hms
        obtain ⟨heq, hjeq⟩ : InterfaceMember.const cj.1 :: msj.1 = ms ∧ msj.2 = j := by
          simpa [Prod.ext_iff] using hpair
        subst heq
        constructor
        · intro r hr
          simp only [List.flatMap_cons, List.mem_append, imRanges] at hr
          rcases hr with hr | hr
          · exact hcok.1 r hr
          · exact hih.1 r hr
        · intro r hr
          simp only [List.flatMap_cons, List.mem_append, imNames] at hr
          rcases hr with hr | hr
          · exact hcok.2 r hr
          · exact hih.2 r hr
      · split at h
        · simp only [Option.bind_eq_some, Option.map_eq_some'] at h
          obtain ⟨ej, he, msj, hms, hpair⟩ := h
          have heok := parseEnumAfterKw_ok text fuel _ ej.1 ej.2 he
          have hih := ih _ msj.1 msj.2 hms
          obtain ⟨heq, hjeq⟩ : InterfaceMember.enum ej.1 :: msj.1 = ms ∧ msj.2 = j := by
            simpa [Prod.ext_iff] using hpair
          subst heq
          constructor
          · intro r hr
            simp only [List.flatMap_cons, List.mem_append, imRanges] at hr
            rcases hr with hr | hr
            · exact heok.1 r hr
            · exact hih.1 r hr
          · intro r hr
            simp only [List.flatMap_cons, List.mem_append, imNames] at hr
            rcases hr with hr | hr
            · exact heok.2 r hr
            · exact hih.2 r hr
        · simp only [Option.bind_eq_some, Option.map_eq_some'] at h
          obtain ⟨mj, hm, msj, hms, hpair⟩ := h
          obtain ⟨_, _, htok⟩ := lexIdentR_ok text _ rw.1 rw.2 hw
          have hmok := parseMethodAfterName_ok text fuel rw.1 _ mj.1 mj.2 htok hm
          have hih := ih _ msj.1 msj.2 hms
          obtain ⟨heq, hjeq⟩ :
              InterfaceMember.method mj.1 :: msj.1 = ms ∧ msj.2 = j := by
            simpa [Prod.ext_iff] using hpair
          subst heq
          constructor
          · intro r hr
            simp only [List.flatMap_cons, List.mem_append, imRanges] at hr
            rcases hr with hr | hr
            · exact hmok.1 r hr
            · exact hih.1 r hr
          · intro r hr
            simp only [List.flatMap_cons, List.mem_append, imNames] at hr
            rcases hr with hr | hr
            · exact hmok.2 r hr
            · exact hih.2 r hr

theorem parseStatement_ok (text : List Char) (fuel i : Nat) (s : Statement)
    (j : Nat) (h : parseStatement text fuel i = some (s, j)) :
    RangesOk text (stRanges s) ∧ NamesOk text (stNames s) ∧
      (∀ r ∈ stModNames s, IsToken text isDottedChar r) := by
  simp only [parseStatement, Option.bind_eq_some] at h
  obtain ⟨i1, _, rw, hw, h⟩ := h
  split at h
  · simp only [Option.bind_eq_some, Option.map_eq_some'] at h
    obtain ⟨rn, hn, j2, _, hpair⟩ := h
    obtain ⟨_, _, htok⟩ := lexDottedR_ok text _ rn.1 rn.2 hn
    obtain ⟨heq, hjeq⟩ : Statement.module ⟨rn.1⟩ = s ∧ j2 = j := by
      simpa [Prod.ext_iff] using hpair
    subst heq
    refine ⟨?_, ?_, ?_⟩ <;> intro r hr <;>
      simp only [stRanges, stNames, stModNames, List.mem_singleton,
        List.not_mem_nil] at hr
    · subst hr
      exact htok.1
    · subst hr
      exact htok
  · split at h
    · simp only [Option.bind_eq_some, Option.map_eq_some'] at h
      obtain ⟨rp, hp, j2, _, hpair⟩ := h
      have hpok := lexString_ok text _ rp.1 rp.2 hp
      obtain ⟨heq, hjeq⟩ : Statement.imp ⟨rp.1⟩ = s ∧ j2 = j := by
        simpa [Prod.ext_iff] using hpair
      subst heq
      refine ⟨?_, ?_, ?_⟩ <;> intro r hr <;>
        simp only [stRanges, stNames, stModNames, List.mem_singleton,
          List.not_mem_nil] at hr
      subst hr
      exact hpok
    · split at h
      · simp only [Option.map_eq_some'] at h
        obtain ⟨cj, hc, hpair⟩ := h
        have hcok := parseConstAfterKw_ok text fuel _ cj.1 cj.2 hc
        obtain ⟨heq, hjeq⟩ : Statement.const cj.1 = s ∧ cj.2 = j := by
          simpa [Prod.ext_iff] using hpair
        subst heq
        exact ⟨hcok.1, hcok.2, by simp [stModNames]⟩
      · split at h
        · simp only [Option.map_eq_some'] at h
          obtain ⟨ej, he, hpair⟩ := h
          have heok := parseEnumAfterKw_ok text fuel _ ej.1 ej.2 he
          obtain ⟨heq, hjeq⟩ : Statement.enum ej.1 = s ∧ ej.2 = j := by
            simpa [Prod.ext_iff] using hpair
          subst heq
          exact ⟨heok.1, heok.2, by simp [stModNames]⟩
        · split at h
          · simp only [Option.map_eq_some'] at h
            obtain ⟨sj, hs, hpair⟩ := h
            have hsok := parseStructAfterKw_ok text fuel _ sj.1 sj.2 hs
            obtain ⟨heq, hjeq⟩ : Statement.struct sj.1 = s ∧ sj.2 = j := by
              simpa [Prod.ext_iff] using hpair
            subst heq
            exact ⟨hsok.1, hsok.2, by simp [stModNames]⟩
          · split at h
            · simp only [Option.map_eq_some'] at h
              obtain ⟨uj, hu, hpair⟩ := h
              have huok := parseUnionAfterKw_ok text fuel _ uj.1 uj.2 hu
              obtain ⟨heq, hjeq⟩ : Statement.union uj.1 = s ∧ uj.2 = j := by
                simpa [Prod.ext_iff] using hpair
              subst heq
              exact ⟨huok.1, huok.2, by simp [stModNames]⟩
            · split at h
              · simp only [Option.bind_eq_some, Option.map_eq_some'] at h
                obtain ⟨rn, hn, j1, _, msj, hms, j2, _, hpair⟩ := h
                obtain ⟨_, _, htok⟩ := lexIdentR_ok text _ rn.1 rn.2 hn
                have hmok := parseInterfaceMembers_ok text fuel _ msj.1 msj.2 hms
                obtain ⟨heq, hjeq⟩ :
                    Statement.interface ⟨rn.1, msj.1⟩ = s ∧ j2 = j := by
                  simpa [Prod.ext_iff] using hpair
                subst heq
                refine ⟨?_, ?_, by simp [stModNames]⟩
                · intro r hr
                  simp only [stRanges, iRanges, List.mem_cons] at hr
                  rcases hr with rfl | hr
                  · exact htok.1
                  · exact hmok.1 r hr
                · intro r hr
                  simp only [stNames, iNames, List.mem_cons] at hr
                  rcases hr with rfl | hr
                  · exact htok
                  · exact hmok.2 r hr
              · cases h

theorem parseStatements_ok (text : List Char) (fuel : Nat) :
    ∀ (i : Nat) (ss : List Statement) (j : Nat),
    parseStatements text fuel i = some (ss, j) →
    RangesOk text (ss.flatMap stRanges) ∧ NamesOk text (ss.flatMap stNames) ∧
      (∀ r ∈ ss.flatMap stModNames, IsToken text isDottedChar r) := by
  induction fuel with
  | zero =>
    intro i ss j h
    simp [parseStatements] at h
  | succ fuel ih =>
    intro i ss j h
    simp only [parseStatements] at h
    split at h
    · obtain ⟨hss, hj⟩ : ([] : List Statement) = ss ∧ skipWsF text i = j := by
        simpa [Prod.ext_iff] using h
      subst hss
      refine ⟨?_, ?_, ?_⟩ <;> intro r hr <;> simp at hr
    · simp only [Option.bind_eq_some, Option.map_eq_some'] at h
      obtain ⟨sj, hs, ssj, hss, hpair⟩ := h
      have hsok := parseStatement_ok text fuel _ sj.1 sj.2 hs
      have hih := ih _ ssj.1 ssj.2 hss
      obtain ⟨heq, hjeq⟩ : sj.1 :: ssj.1 = ss ∧ ssj.2 = j := by
        simpa [Prod.ext_iff] using hpair
      subst heq
      refine ⟨?_, ?_, ?_⟩ <;> intro r hr <;>
        simp only [List.flatMap_cons, List.mem_append] at hr <;>
        rcases hr with hr | hr
      · exact hsok.1 r hr
      · exact hih.1 r hr
      · exact hsok.2.1 r hr
      · exact hih.2.1 r hr
      · exact hsok.2.2 r hr
      · exact hih.2.2 r hr

/-- C1: whenever the parser accepts a text and produces a tree, every byte
range captured anywhere in that tree (declaration names, types, values,
paths of imports and ordinals) satisfies 0 <= r.start < r.stop <= len(text);
every declaration-name range holds exactly the identifier written in the
source at that point: its slice is the maximal identifier-character run
starting at its start offset (dotted-identifier run for module names). -/
theorem C1_parse_ranges (text : List Char) (file : MojomFile)
    (h : parse text = some file) :
    (∀ r ∈ rangesOf file, 0 ≤ r.start ∧ r.start < r.stop ∧ r.stop ≤ text.length) ∧
    (∀ r ∈ nameRangesOf file, IsToken text isIdentChar r) ∧
    (∀ r ∈ moduleNameRangesOf file, IsToken text isDottedChar r) := by
  simp only [parse, Option.map_eq_some'] at h
  obtain ⟨ssj, hss, heq⟩ := h
  have hok := parseStatements_ok text (text.length + 1) 0 ssj.1 ssj.2 hss
  subst heq
  refine ⟨?_, ?_, ?_⟩
  · intro r hr
    simp only [rangesOf] at hr
    have := hok.1 r hr
    exact ⟨Nat.zero_le _, this.1, this.2⟩
  · intro r hr
    simp only [nameRangesOf] at hr
    exact hok.2.1 r hr
  · intro r hr
    simp only [moduleNameRangesOf] at hr
    exact hok.2.2 r hr

/-- A sample source exercising every statement form, including plus-signed
and signed-exponent numeric literals. -/
def c1Text : List Char :=
  ("module a.b;\nimport \"x.mojom\";\nstruct S \x7b int32 x@1 = 5; " ++
   "enum E \x7b A = 1, B \x7d; \x7d;\ninterface I \x7b const int8 k = -1; " ++
   "M(array<int32> a) => (); \x7d;\nunion U \x7b string s; \x7d;\nenum F;\n" ++
   "const double d = -7e+15;\nconst uint64 m = +0X1AB4;\n" ++
   "const float g = +9e-2;\n").toList

/-- The tree the parser produces for the sample source. -/
def c1File : MojomFile :=
  ⟨[Statement.module ⟨⟨7, 10⟩⟩,
    Statement.imp ⟨⟨19, 28⟩⟩,
    Statement.struct ⟨⟨37, 38⟩,
      [StructBody.field ⟨⟨41, 46⟩, ⟨47, 48⟩, some ⟨48, 50⟩, some ⟨53, 54⟩⟩,
       StructBody.enum ⟨⟨61, 62⟩,
         [⟨⟨65, 66⟩, some ⟨69, 70⟩⟩, ⟨⟨72, 73⟩, none⟩]⟩]⟩,
    Statement.interface ⟨⟨90, 91⟩,
      [InterfaceMember.const ⟨⟨100, 104⟩, ⟨105, 106⟩, ⟨109, 111⟩⟩,
       InterfaceMember.method ⟨⟨113, 114⟩, none,
         [⟨⟨115, 127⟩, ⟨128, 129⟩, none⟩], some ⟨[]⟩⟩]⟩,
    Statement.union ⟨⟨147, 148⟩, [⟨⟨151, 157⟩, ⟨158, 159⟩, none⟩]⟩,
    Statement.enum ⟨⟨169, 170⟩, []⟩,
    Statement.const ⟨⟨178, 184⟩, ⟨185, 186⟩, ⟨189, 195⟩⟩,
    Statement.const ⟨⟨203, 209⟩, ⟨210, 211⟩, ⟨214, 221⟩⟩,
    Statement.const ⟨⟨229, 234⟩, ⟨235, 236⟩, ⟨239, 244⟩⟩]⟩

set_option maxRecDepth 4096 in
/-- The range theorem holds at the sample source, whose parse succeeds with
the explicit tree above. -/
theorem C1_parse_ranges_witness :
    parse c1Text = some c1File ∧
    ((∀ r ∈ rangesOf c1File,
        0 ≤ r.start ∧ r.start < r.stop ∧ r.stop ≤ c1Text.length) ∧
      (∀ r ∈ nameRangesOf c1File, IsToken c1Text isIdentChar r) ∧
      (∀ r ∈ moduleNameRangesOf c1File, IsToken c1Text isDottedChar r)) :=
  ⟨by decide, C1_parse_ranges c1Text c1File (by decide)⟩

end Mojom
